import Mathlib

/-!
A verification development for `employee_manager.py`: a shallow embedding of
the roster store (load/save over a JSON file, name/age validation, id
assignment, add, view, search, delete) together with theorems checking the
documented contract against the embedded code.

Python runtime values are embedded as `PyVal`; operations that can raise a
Python exception (`TypeError`, `AttributeError`) return `Option`, with
`Option.none` standing for the raised exception.
-/

namespace EmployeeManager

/-- A Python runtime value as it can occur in the employee roster: the JSON
value universe (`None`, `bool`, `int`, `float`, `str`, `list`, `dict` with
string keys). A float is an exact decimal `mant × 10 ^ exp`. -/
inductive PyVal where
  | vNone : PyVal
  | vBool : Bool → PyVal
  | vInt : Int → PyVal
  | vFloat : Int → Int → PyVal
  | vStr : String → PyVal
  | vList : List PyVal → PyVal
  | vDict : List (String × PyVal) → PyVal
deriving Repr

/-! ## Python string primitives used by the source -/

/-- The whitespace test of Python's `str.strip` / `int` parsing: the Unicode
whitespace property (ASCII controls 9-13 and 28-31, space, NEL, NBSP, and the
Unicode space separators). -/
def pySpace (c : Char) : Bool :=
  decide ((9 ≤ c.toNat ∧ c.toNat ≤ 13) ∨ (28 ≤ c.toNat ∧ c.toNat ≤ 32) ∨
    c.toNat = 133 ∨ c.toNat = 160 ∨ c.toNat = 0x1680 ∨
    (0x2000 ≤ c.toNat ∧ c.toNat ≤ 0x200a) ∨ c.toNat = 0x2028 ∨
    c.toNat = 0x2029 ∨ c.toNat = 0x202f ∨ c.toNat = 0x205f ∨ c.toNat = 0x3000)

/-- Leading-whitespace removal on a character list. -/
def stripFront (cs : List Char) : List Char := cs.dropWhile pySpace

/-- Python's `str.strip()`: drop whitespace from both ends. -/
def pyStripL (cs : List Char) : List Char :=
  ((cs.dropWhile pySpace).reverse.dropWhile pySpace).reverse

/-- `str.strip()` lifted to `String`. -/
def pyStrip (s : String) : String := ⟨pyStripL s.data⟩

/-- Python's `str.lower()`, restricted to ASCII case folding (the source is
only exercised on ASCII names; full Unicode folding is not modelled). -/
def pyLowerChar (c : Char) : Char :=
  if 'A' ≤ c ∧ c ≤ 'Z' then Char.ofNat (c.toNat + 32) else c

/-- `str.lower()` on a `String`. -/
def pyLower (s : String) : String := ⟨s.data.map pyLowerChar⟩

/-- Numeric value of an ASCII digit character. -/
def digitVal (c : Char) : Nat := c.toNat - 48

/-- Digits (with Python's single-underscore-between-digits rule) after a
leading digit has been consumed; the whole list must be consumed. -/
def pyDigitsRest (acc : Nat) : List Char → Option Nat
  | [] => some acc
  | '_' :: c :: cs =>
      if c.isDigit then pyDigitsRest (acc * 10 + digitVal c) cs else none
  | '_' :: [] => none
  | c :: cs =>
      if c.isDigit then pyDigitsRest (acc * 10 + digitVal c) cs else none

/-- A full run of digits in Python `int` literal syntax: nonempty, starts with
a digit, single underscores allowed only between digits. -/
def pyDigits : List Char → Option Nat
  | c :: cs => if c.isDigit then pyDigitsRest (digitVal c) cs else none
  | [] => none

/-- Python's `int(s)` on a string: strip whitespace, optional sign, ASCII
digits (non-ASCII decimal digits are not modelled). `Option.none` is the
raised `ValueError`. -/
def pyInt (s : String) : Option Int :=
  match pyStripL s.data with
  | '+' :: cs => (pyDigits cs).map (fun n => (n : Int))
  | '-' :: cs => (pyDigits cs).map (fun n => -(n : Int))
  | cs => (pyDigits cs).map (fun n => (n : Int))

/-! ## Validation (`validate_name`, `validate_age`) -/

/-- `validate_name`: the stripped name must be nonempty. -/
def validate_name (name : String) : Bool :=
  (pyStrip name).length ≥ 1

/-- `validate_age`: parse the string with `int`, accept exactly the inclusive
range 15..100; `Option.none` is the `None` return. -/
def validate_age (age_str : String) : Option Int :=
  match pyInt age_str with
  | some age => if 15 ≤ age ∧ age ≤ 100 then some age else none
  | none => none

/-! ## Serialisation: `json.dump(employees, f, indent=2, ensure_ascii=False)` -/

/-- Decimal digit characters of a natural number, most significant first. -/
def natChars (n : Nat) : List Char :=
  if n < 10 then [Char.ofNat (48 + n)]
  else natChars (n / 10) ++ [Char.ofNat (48 + n % 10)]
termination_by n
decreasing_by omega

/-- The characters of Python's `str(i)` for an `int`: optional minus sign,
then minimal decimal digits. -/
def intChars (i : Int) : List Char :=
  (if i < 0 then ['-'] else []) ++ natChars i.natAbs

/-- Lowercase hexadecimal digit character, as CPython's `\uXXXX` emitter. -/
def hexDig (n : Nat) : Char :=
  if n < 10 then Char.ofNat (48 + n) else Char.ofNat (87 + n)

/-- JSON escaping of one character, `ensure_ascii=False` style: only `"`,
`\`, and control characters are escaped; everything else is literal. -/
def esc (c : Char) : List Char :=
  if c = '"' then ['\\', '"']
  else if c = '\\' then ['\\', '\\']
  else if c = '\x08' then ['\\', 'b']
  else if c = '\x0c' then ['\\', 'f']
  else if c = '\n' then ['\\', 'n']
  else if c = '\r' then ['\\', 'r']
  else if c = '\t' then ['\\', 't']
  else if c.toNat < 32 then
    ['\\', 'u', '0', '0', hexDig (c.toNat / 16), hexDig (c.toNat % 16)]
  else [c]

/-- A serialised JSON string, quotes included. -/
def dumpStr (s : String) : List Char := '"' :: (s.data.flatMap esc ++ ['"'])

/-- The indentation prefix at nesting level `lvl` for `indent=2`. -/
def pad (lvl : Nat) : List Char := List.replicate (2 * lvl) ' '

mutual

/-- Pretty-printed JSON text of a value at nesting level `lvl`, following
CPython's `indent=2` layout (item separator `,`, key separator `: `). A
float is written `mant e exp`, an exact decimal spelling of the same number
(CPython uses `repr(float)`; no claim concerns float output). -/
def dumpVal : Nat → PyVal → List Char
  | _, .vNone => ['n', 'u', 'l', 'l']
  | _, .vBool true => ['t', 'r', 'u', 'e']
  | _, .vBool false => ['f', 'a', 'l', 's', 'e']
  | _, .vInt n => intChars n
  | _, .vFloat m e => intChars m ++ 'e' :: intChars e
  | _, .vStr s => dumpStr s
  | _, .vList [] => ['[', ']']
  | lvl, .vList (x :: xs) =>
      '[' :: '\n' :: (dumpItems (lvl + 1) x xs ++ '\n' :: (pad lvl ++ [']']))
  | _, .vDict [] => ['{', '}']
  | lvl, .vDict (kv :: kvs) =>
      '{' :: '\n' :: (dumpEntries (lvl + 1) kv kvs ++ '\n' :: (pad lvl ++ ['}']))
termination_by _ v => sizeOf v

/-- The indented, comma-and-newline separated items of a nonempty list. -/
def dumpItems : Nat → PyVal → List PyVal → List Char
  | lvl, x, [] => pad lvl ++ dumpVal lvl x
  | lvl, x, y :: ys => pad lvl ++ (dumpVal lvl x ++ ',' :: '\n' :: dumpItems lvl y ys)
termination_by _ x xs => 1 + sizeOf x + sizeOf xs

/-- The indented `"key": value` entries of a nonempty dict. -/
def dumpEntries : Nat → String × PyVal → List (String × PyVal) → List Char
  | lvl, (k, v), [] => pad lvl ++ (dumpStr k ++ ':' :: ' ' :: dumpVal lvl v)
  | lvl, (k, v), kv :: kvs =>
      pad lvl ++ (dumpStr k ++ ':' :: ' ' :: (dumpVal lvl v ++ ',' :: '\n' :: dumpEntries lvl kv kvs))
termination_by _ kv kvs => 1 + sizeOf kv + sizeOf kvs

end

/-- The full file content `json.dump` writes for the employee list. -/
def dumps (employees : List PyVal) : String := ⟨dumpVal 0 (.vList employees)⟩

/-- A file system snapshot: contents by path, `Option.none` when the file
does not exist. -/
def FileSys : Type := String → Option String

/-- The file system with no files. -/
def emptyFS : FileSys := fun _ => none

/-- The default persistence path. -/
def DATA_FILE : String := "employees.json"

/-- `save_data`: overwrite `filename` with the serialised collection. -/
def save_data (employees : List PyVal) (fs : FileSys)
    (filename : String := DATA_FILE) : FileSys :=
  fun p => if p = filename then some (dumps employees) else fs p

/-! ## Parsing: `json.load` (strict mode, default decoder) -/

/-- The whitespace JSON itself allows between tokens. -/
def jsonWs (c : Char) : Bool := c = ' ' || c = '\t' || c = '\n' || c = '\r'

/-- Skip inter-token whitespace. -/
def dropWs : List Char → List Char
  | c :: cs => if jsonWs c then dropWs cs else c :: cs
  | [] => []

/-- ASCII digit test. -/
def isDig (c : Char) : Bool := decide (48 ≤ c.toNat ∧ c.toNat ≤ 57)

/-- Longest leading run of ASCII digits. -/
def takeDigits : List Char → List Char × List Char
  | c :: cs =>
      if isDig c then
        let (ds, r) := takeDigits cs
        (c :: ds, r)
      else ([], c :: cs)
  | [] => ([], [])

/-- The number a digit run denotes. -/
def digitsVal (ds : List Char) : Nat :=
  ds.foldl (fun a c => a * 10 + digitVal c) 0

/-- Split an optional leading minus sign. -/
def negSplit : List Char → Bool × List Char
  | [] => (false, [])
  | c :: r => if c = '-' then (true, r) else (false, c :: r)

/-- Split an optional exponent sign. -/
def sgnSplit : List Char → Int × List Char
  | [] => (1, [])
  | c :: r => if c = '+' then (1, r) else if c = '-' then (-1, r) else (1, c :: r)

/-- The optional `.digits` group of a number token; taken only when at least
one digit follows the dot, otherwise nothing is consumed. -/
def fracPart : List Char → List Char × List Char
  | [] => ([], [])
  | c :: rr =>
      if c = '.' then
        match takeDigits rr with
        | ([], _) => ([], c :: rr)
        | (ds, r4) => (ds, r4)
      else ([], c :: rr)

/-- The optional `[eE][+-]?digits` group of a number token; taken only when
complete, otherwise nothing is consumed. -/
def expPart : List Char → Bool × Int × List Char
  | [] => (false, 0, [])
  | c :: rr =>
      if c = 'e' ∨ c = 'E' then
        let (esgn, rr1) := sgnSplit rr
        match takeDigits rr1 with
        | ([], _) => (false, 0, c :: rr)
        | (ds, r6) => (true, esgn * (digitsVal ds : Int), r6)
      else (false, 0, c :: rr)

/-- The fraction/exponent tail of a number token, after the integer part
`intDs` has been taken with `r2` remaining: without fraction and exponent
the token is an `int`, otherwise a `float` of exact decimal value
`mant × 10 ^ exp`. -/
def numTail (neg : Bool) (intDs r2 : List Char) : Option (PyVal × List Char) :=
  let (fracDs, r3) := fracPart r2
  let (hasExp, expV, r5) := expPart r3
  if fracDs.isEmpty ∧ hasExp = false then
    some (.vInt ((if neg then -1 else 1) * (digitsVal intDs : Int)), r5)
  else
    some (.vFloat ((if neg then -1 else 1) * (digitsVal (intDs ++ fracDs) : Int))
      (expV - fracDs.length), r5)

/-- A JSON number token, following the decoder's regular expression: integer
part `0 | [1-9][0-9]*` with optional sign, then the optional fraction and
exponent groups via `numTail`. -/
def readNum (cs : List Char) : Option (PyVal × List Char) :=
  let (neg, cs1) := negSplit cs
  match cs1 with
  | [] => none
  | c :: r =>
      if isDig c then
        if c = '0' then numTail neg ['0'] r
        else numTail neg (takeDigits (c :: r)).1 (takeDigits (c :: r)).2
      else none

/-- Value of a hexadecimal digit character. -/
def hexNum (c : Char) : Option Nat :=
  if '0' ≤ c ∧ c ≤ '9' then some (c.toNat - 48)
  else if 'a' ≤ c ∧ c ≤ 'f' then some (c.toNat - 87)
  else if 'A' ≤ c ∧ c ≤ 'F' then some (c.toNat - 55)
  else none

/-- Value of a `\uXXXX` hex quartet. -/
def hexQuad (a b c d : Char) : Option Nat := do
  let x ← hexNum a
  let y ← hexNum b
  let z ← hexNum c
  let w ← hexNum d
  pure (((x * 16 + y) * 16 + z) * 16 + w)

/-- Single-character escapes the decoder accepts after a backslash. -/
def escapeChar (c : Char) : Option Char :=
  if c = '"' then some '"'
  else if c = '\\' then some '\\'
  else if c = '/' then some '/'
  else if c = 'b' then some '\x08'
  else if c = 'f' then some '\x0c'
  else if c = 'n' then some '\n'
  else if c = 'r' then some '\r'
  else if c = 't' then some '\t'
  else none

/-- The scalar a surrogate pair denotes. -/
def pairChar (n m : Nat) : Char :=
  Char.ofNat (0x10000 + (n - 0xd800) * 0x400 + (m - 0xdc00))

/-- Decode one escape sequence (the part after the backslash), strict mode:
`\uXXXX` surrogate pairs are combined. (CPython tolerates a lone surrogate,
producing a string Lean's `Char` cannot carry; that corner is mapped to
failure.) -/
def escDecode : List Char → Option (Char × List Char)
  | [] => none
  | e :: r1 =>
      if e = 'u' then
        match r1 with
        | a :: b :: c :: d :: r2 =>
            (match hexQuad a b c d with
             | none => none
             | some n =>
                 if n < 0xd800 ∨ 0xe000 ≤ n then some (Char.ofNat n, r2)
                 else if n < 0xdc00 then
                   match r2 with
                   | s1 :: s2 :: a2 :: b2 :: c2 :: d2 :: r3 =>
                       if s1 = '\\' ∧ s2 = 'u' then
                         match hexQuad a2 b2 c2 d2 with
                         | some m =>
                             if 0xdc00 ≤ m ∧ m < 0xe000 then
                               some (pairChar n m, r3)
                             else none
                         | none => none
                       else none
                   | _ => none
                 else none)
        | _ => none
      else (escapeChar e).map (fun ch => (ch, r1))

/-- String body after the opening quote, strict mode: raw control characters
are rejected, escapes go through `escDecode`. Fuel-indexed; the callers hand
in more fuel than the input length, so fuel exhaustion is unreachable on
real inputs. -/
def readStrBody : Nat → List Char → List Char → Option (String × List Char)
  | 0, _, _ => none
  | fuel + 1, acc, cs =>
      match cs with
      | [] => none
      | c :: r =>
          if c = '"' then some (⟨acc.reverse⟩, r)
          else if c = '\\' then
            match escDecode r with
            | some p => readStrBody fuel (p.1 :: acc) p.2
            | none => none
          else if c.toNat < 32 then none
          else readStrBody fuel (c :: acc) r

mutual

/-- One JSON value (fuel-indexed; the callers hand in more fuel than the
input length, so fuel exhaustion is unreachable on real inputs). -/
def readVal : Nat → List Char → Option (PyVal × List Char)
  | 0, _ => none
  | fuel + 1, cs =>
      match dropWs cs with
      | [] => none
      | c :: r =>
          if c = 'n' then
            match r with
            | 'u' :: 'l' :: 'l' :: r2 => some (.vNone, r2)
            | _ => none
          else if c = 't' then
            match r with
            | 'r' :: 'u' :: 'e' :: r2 => some (.vBool true, r2)
            | _ => none
          else if c = 'f' then
            match r with
            | 'a' :: 'l' :: 's' :: 'e' :: r2 => some (.vBool false, r2)
            | _ => none
          else if c = '"' then (readStrBody fuel [] r).map (fun p => (.vStr p.1, p.2))
          else if c = '[' then
            match dropWs r with
            | [] => none
            | c2 :: r2 =>
                if c2 = ']' then some (.vList [], r2)
                else (readItems fuel (c2 :: r2)).map (fun p => (.vList p.1, p.2))
          else if c = '{' then
            match dropWs r with
            | [] => none
            | c2 :: r2 =>
                if c2 = '}' then some (.vDict [], r2)
                else (readEntries fuel (c2 :: r2)).map (fun p => (.vDict p.1, p.2))
          else if c = '-' ∨ isDig c then readNum (c :: r)
          else none

/-- One-or-more comma-separated array items up to the closing bracket. -/
def readItems : Nat → List Char → Option (List PyVal × List Char)
  | 0, _ => none
  | fuel + 1, cs =>
      match readVal fuel cs with
      | none => none
      | some (v, r) =>
          match dropWs r with
          | [] => none
          | c :: r2 =>
              if c = ',' then
                match readItems fuel r2 with
                | some (vs, r3) => some (v :: vs, r3)
                | none => none
              else if c = ']' then some ([v], r2)
              else none

/-- One-or-more `"key": value` object entries up to the closing brace. -/
def readEntries : Nat → List Char → Option (List (String × PyVal) × List Char)
  | 0, _ => none
  | fuel + 1, cs =>
      match dropWs cs with
      | [] => none
      | c :: r =>
          if c = '"' then
            match readStrBody fuel [] r with
            | none => none
            | some (k, r1) =>
                match dropWs r1 with
                | [] => none
                | c2 :: r2 =>
                    if c2 = ':' then
                      match readVal fuel r2 with
                      | none => none
                      | some (v, r3) =>
                          match dropWs r3 with
                          | [] => none
                          | c3 :: r4 =>
                              if c3 = ',' then
                                match readEntries fuel r4 with
                                | some (kvs, r5) => some ((k, v) :: kvs, r5)
                                | none => none
                              else if c3 = '}' then some ([(k, v)], r4)
                              else none
                    else none
          else none

end

/-- `json.loads`: one document, nothing but whitespace after it. -/
def loads (s : String) : Option PyVal :=
  match readVal (s.data.length + 1) s.data with
  | some (v, r) => if dropWs r = [] then some v else none
  | none => none

/-- `load_data`: empty collection when the file is missing, unreadable as
JSON, or not a top-level array; the decoded records as-is otherwise. -/
def load_data (fs : FileSys) (filename : String := DATA_FILE) : List PyVal :=
  match fs filename with
  | none => []
  | some content =>
      match loads content with
      | some (.vList xs) => xs
      | _ => []

/-! ## Python dynamic operations the roster code leans on -/

/-- The exact numeric value of a Python number, as `mant × 10 ^ exp`
(`bool` is an `int` subtype: `True = 1`, `False = 0`). -/
def numVal : PyVal → Option (Int × Int)
  | .vBool b => some (if b then 1 else 0, 0)
  | .vInt n => some (n, 0)
  | .vFloat m e => some (m, e)
  | _ => none

/-- `<` on exact decimals, by scaling to a common exponent. -/
def decNumLt (a b : Int × Int) : Bool :=
  if a.2 ≤ b.2 then decide (a.1 < b.1 * 10 ^ (b.2 - a.2).toNat)
  else decide (a.1 * 10 ^ (a.2 - b.2).toNat < b.1)

/-- `=` on exact decimals, by scaling to a common exponent. -/
def decNumEq (a b : Int × Int) : Bool :=
  if a.2 ≤ b.2 then decide (a.1 = b.1 * 10 ^ (b.2 - a.2).toNat)
  else decide (a.1 * 10 ^ (a.2 - b.2).toNat = b.1)

/-- Code-point lexicographic order on character lists (Python `str < str`). -/
def strLtL : List Char → List Char → Bool
  | [], [] => false
  | [], _ :: _ => true
  | _ :: _, [] => false
  | a :: as, b :: bs =>
      if a.toNat < b.toNat then true
      else if b.toNat < a.toNat then false
      else strLtL as bs

/-- Python `x < y` on roster values: numbers compare by value, strings
lexicographically; any other pairing is a `TypeError` (`Option.none`).
(CPython also orders lists elementwise, but in `add_employee` a list-valued
id ends in a `TypeError` either way — at `max` or at `1 + …` — so collapsing
it here leaves every modelled outcome unchanged.) -/
def pyLt (x y : PyVal) : Option Bool :=
  match numVal x, numVal y with
  | some a, some b => some (decNumLt a b)
  | _, _ =>
      match x, y with
      | .vStr s, .vStr t => some (strLtL s.data t.data)
      | _, _ => none

/-- The scan `max` performs after fixing a first candidate: keep the later
element exactly when it is strictly greater. -/
def pyMaxFrom (cur : PyVal) : List PyVal → Option PyVal
  | [] => some cur
  | v :: vs =>
      match pyLt cur v with
      | some b => pyMaxFrom (if b then v else cur) vs
      | none => none

/-- Python `max(values, default=dflt)`. -/
def pyMax (dflt : PyVal) : List PyVal → Option PyVal
  | [] => some dflt
  | v :: vs => pyMaxFrom v vs

/-- Python `e.get(key, dflt)`: defaulting lookup on a dict; calling `.get`
on anything else raises `AttributeError` (`Option.none`). -/
def dictGet (e : PyVal) (key : String) (dflt : PyVal) : Option PyVal :=
  match e with
  | .vDict kvs => some ((kvs.lookup key).getD dflt)
  | _ => none

/-- Python `1 + v`: defined for numbers, a `TypeError` otherwise. -/
def pyAddOneInt : PyVal → Option PyVal
  | .vBool b => some (.vInt (1 + if b then 1 else 0))
  | .vInt n => some (.vInt (1 + n))
  | .vFloat m e =>
      some (if 0 ≤ e then .vFloat (1 + m * 10 ^ e.toNat) 0
            else .vFloat (10 ^ (-e).toNat + m) e)
  | _ => none

/-- The id assignment `1 + max((e.get("id", 0) for e in employees), default=0)`. -/
def nextId (employees : List PyVal) : Option PyVal := do
  let vals ← employees.mapM (fun e => dictGet e "id" (.vInt 0))
  let m ← pyMax (.vInt 0) vals
  pyAddOneInt m

/-! ## The roster operations -/

/-- What `add_employee` reports back: name rejected, age rejected, or the
new collection together with the assigned id. -/
inductive AddOutcome where
  | badName : AddOutcome
  | badAge : AddOutcome
  | ok : List PyVal → PyVal → AddOutcome

/-- `add_employee`, with the three `input()` lines passed as arguments:
strip and validate the name, strip and validate the age, default the
stripped department to `"General"`, assign the next id, append, save.
`Option.none` is an uncaught exception from the id computation. -/
def add_employee (employees : List PyVal) (nameRaw ageRaw deptRaw : String)
    (fs : FileSys) : Option (AddOutcome × FileSys) :=
  let name := pyStrip nameRaw
  if ¬ validate_name name then some (.badName, fs)
  else
    match validate_age (pyStrip ageRaw) with
    | none => some (.badAge, fs)
    | some age =>
        let deptS := pyStrip deptRaw
        let dept := if deptS = "" then "General" else deptS
        match nextId employees with
        | none => none
        | some nid =>
            let emp : PyVal := .vDict [("id", nid), ("name", .vStr name),
              ("age", .vInt age), ("department", .vStr dept)]
            let employees2 := employees ++ [emp]
            some (.ok employees2 nid, save_data employees2 fs)

/-- Left-aligned fixed-width cell, Python `format(v, '<w')` (no truncation). -/
def padTo (w : Nat) (s : String) : String :=
  s ++ ⟨List.replicate (w - s.length) ' '⟩

/-- `format(v, '<w')` body text for a cell value: ints print their digits,
strings print themselves, bools format through `int` (`True` is `1`); a
width spec on `None`, a list, or a dict raises `TypeError`. A float is
rendered in `mant e exp` spelling (no claim exercises float cells). -/
def fmtCell : PyVal → Option String
  | .vInt n => some ⟨intChars n⟩
  | .vStr s => some s
  | .vBool b => some (if b then "1" else "0")
  | .vFloat m e => some ⟨intChars m ++ 'e' :: intChars e⟩
  | _ => none

/-- One table cell: `e.get(key, '')` then format. -/
def cellOf (e : PyVal) (key : String) : Option String := do
  fmtCell (← dictGet e key (.vStr ""))

/-- One printed table row (including the trailing newline `print` adds). -/
def rowOf (e : PyVal) : Option String := do
  let c1 ← cellOf e "id"
  let c2 ← cellOf e "name"
  let c3 ← cellOf e "age"
  let c4 ← cellOf e "department"
  pure (padTo 4 c1 ++ " " ++ padTo 20 c2 ++ " " ++ padTo 4 c3 ++ " " ++
    padTo 15 c4 ++ "\n")

/-- The `"-" * 50` separator line. -/
def dashes : String := ⟨List.replicate 50 '-'⟩

/-- The printed column-header line. -/
def headerRow : String :=
  padTo 4 "ID" ++ " " ++ padTo 20 "Name" ++ " " ++ padTo 4 "Age" ++ " " ++
    padTo 15 "Department" ++ "\n"

/-- `view_all`: everything the function prints, or `Option.none` if
rendering a row raises. -/
def view_all (employees : List PyVal) : Option String :=
  match employees with
  | [] => some "No employees.\n"
  | _ => do
      let rows ← employees.mapM rowOf
      pure (dashes ++ "\n" ++ headerRow ++ dashes ++ "\n" ++
        String.join rows ++ dashes ++ "\n")

/-- `e.get("name", "").lower()` for the search filter: `Option.none` when
`e` is not a dict or the name value is not a string. -/
def lowerName (e : PyVal) : Option String :=
  match dictGet e "name" (.vStr "") with
  | some (.vStr s) => some (pyLower s)
  | some _ => none
  | none => none

/-- Python `p in s` on strings: contiguous-substring test. -/
def isSubL (p : List Char) : List Char → Bool
  | [] => p.isEmpty
  | c :: t => p.isPrefixOf (c :: t) || isSubL p t

/-- The list-comprehension filter of `find_by_name`. -/
def findAux (q : List Char) : List PyVal → Option (List PyVal)
  | [] => some []
  | e :: es => do
      let nm ← lowerName e
      let rest ← findAux q es
      pure (if isSubL q nm.data then e :: rest else rest)

/-- `find_by_name`: case-insensitive substring filter on the stripped query. -/
def find_by_name (employees : List PyVal) (name_query : String) :
    Option (List PyVal) :=
  findAux (pyLower (pyStrip name_query)).data employees

/-- Python `e.get("id") == target` for an `int` target: numeric values
compare by value; any non-number compares unequal (never raises). -/
def idEq (v : PyVal) (target : Int) : Bool :=
  match numVal v with
  | some a => decNumEq a (target, 0)
  | none => false

/-- Index of the first record whose id equals the target: `some none` when
no record matches, `Option.none` when `.get` raises on a non-dict element
before any match. -/
def findDelIdx (target : Int) : List PyVal → Option (Option Nat)
  | [] => some none
  | e :: es =>
      match e with
      | .vDict kvs =>
          if idEq ((kvs.lookup "id").getD .vNone) target then some (some 0)
          else (findDelIdx target es).map (fun r => r.map (· + 1))
      | _ => none

/-- `delete_by_id`: remove the first record with the given id and save,
reporting whether one was found; the file is untouched when none is. -/
def delete_by_id (employees : List PyVal) (id_to_delete : Int) (fs : FileSys) :
    Option (List PyVal × Bool × FileSys) :=
  match findDelIdx id_to_delete employees with
  | none => none
  | some none => some (employees, false, fs)
  | some (some i) =>
      let employees2 := employees.eraseIdx i
      some (employees2, true, save_data employees2 fs)

/-! ## Menu-level steps, for the temporal claims -/

/-- One menu action, with the add inputs it would read. -/
inductive Op where
  | addOp : String → String → String → Op
  | delOp : Int → Op
  | viewOp : Op
  | searchOp : String → Op

/-- The collection after one menu action (view and search never mutate; a
rejected or crashed add leaves the collection as it was). -/
def applyOp (employees : List PyVal) (fs : FileSys) : Op → List PyVal
  | .addOp n a d =>
      match add_employee employees n a d fs with
      | some (.ok es2 _, _) => es2
      | _ => employees
  | .delOp t =>
      match delete_by_id employees t fs with
      | some (es2, _, _) => es2
      | none => employees
  | .viewOp => employees
  | .searchOp _ => employees

/-- The collection reached by a sequence of menu actions from the empty
collection. -/
def runScript (ops : List Op) : List PyVal :=
  ops.foldl (fun es op => applyOp es emptyFS op) []

/-- The `"id"` field of a well-formed record, when it is an integer. -/
def recId (e : PyVal) : Option Int :=
  match e with
  | .vDict kvs =>
      match kvs.lookup "id" with
      | some (.vInt i) => some i
      | _ => none
  | _ => none

/-- The integer ids of a collection, defined when every record is a dict
with an integer `"id"`. -/
def idsOf (employees : List PyVal) : Option (List Int) :=
  employees.mapM recId

/-- Maximum of a list of integers, `0` for the empty list. -/
def maxInt : List Int → Int
  | [] => 0
  | x :: xs => xs.foldl max x

/-! ## Stripping and integer parsing lemmas -/

theorem dropWhile_shape (p : Char → Bool) (l : List Char) :
    l.dropWhile p = [] ∨ ∃ c t, l.dropWhile p = c :: t ∧ p c = false := by
  induction l with
  | nil => exact Or.inl rfl
  | cons c t ih =>
      by_cases h : p c
      · simpa [List.dropWhile_cons, h] using ih
      · exact Or.inr ⟨c, t, by simp [List.dropWhile_cons, h], by simp [h]⟩

theorem dropWhile_head_false (p : Char → Bool) (c : Char) (t : List Char)
    (h : p c = false) : (c :: t).dropWhile p = c :: t := by
  simp [List.dropWhile_cons, h]

theorem dropWhile_idem (p : Char → Bool) (l : List Char) :
    (l.dropWhile p).dropWhile p = l.dropWhile p := by
  rcases dropWhile_shape p l with h | ⟨c, t, h, hc⟩
  · simp [h]
  · rw [h, dropWhile_head_false p c t hc]

theorem pyStripL_idem (cs : List Char) : pyStripL (pyStripL cs) = pyStripL cs := by
  have step1 : (pyStripL cs).dropWhile pySpace = pyStripL cs := by
    rcases hE : pyStripL cs with _ | ⟨c, t⟩
    · rfl
    · have hpre : pyStripL cs <+: cs.dropWhile pySpace := by
        unfold pyStripL
        conv_rhs => rw [← List.reverse_reverse (cs.dropWhile pySpace)]
        exact List.reverse_prefix.mpr (List.dropWhile_suffix pySpace)
      rw [hE] at hpre
      rcases hpre with ⟨u, hu⟩
      have hc : pySpace c = false := by
        rcases dropWhile_shape pySpace cs with h0 | ⟨c2, t2, h0, hc2⟩
        · rw [h0] at hu; exact absurd hu.symm (by simp)
        · have hcc : c2 :: t2 = c :: (t ++ u) := by rw [← h0, ← hu]; simp
          injection hcc with h1 _
          exact h1 ▸ hc2
      exact dropWhile_head_false pySpace c t hc
  have step2 : (pyStripL cs).reverse.dropWhile pySpace = (pyStripL cs).reverse := by
    have hrev : (pyStripL cs).reverse = (cs.dropWhile pySpace).reverse.dropWhile pySpace := by
      unfold pyStripL; rw [List.reverse_reverse]
    rw [hrev, dropWhile_idem]
  calc pyStripL (pyStripL cs)
      = (((pyStripL cs).dropWhile pySpace).reverse.dropWhile pySpace).reverse := rfl
    _ = ((pyStripL cs).reverse.dropWhile pySpace).reverse := by rw [step1]
    _ = ((pyStripL cs).reverse).reverse := by rw [step2]
    _ = pyStripL cs := List.reverse_reverse _

theorem pyStrip_idem (s : String) : pyStrip (pyStrip s) = pyStrip s := by
  unfold pyStrip
  rw [show ((⟨pyStripL s.data⟩ : String)).data = pyStripL s.data from rfl, pyStripL_idem]

theorem pyInt_strip (s : String) : pyInt (pyStrip s) = pyInt s := by
  unfold pyInt pyStrip
  rw [show ((⟨pyStripL s.data⟩ : String)).data = pyStripL s.data from rfl, pyStripL_idem]

theorem validate_age_strip (s : String) :
    validate_age (pyStrip s) = validate_age s := by
  unfold validate_age
  rw [pyInt_strip]

theorem validate_name_strip (s : String) (h : pyStrip s ≠ "") :
    validate_name (pyStrip s) = true := by
  unfold validate_name
  rw [pyStrip_idem]
  have hne : (pyStrip s).data ≠ [] := by
    intro hd
    exact h (String.ext (hd.trans rfl))
  have hlen : 1 ≤ (pyStrip s).length := by
    show 1 ≤ (pyStrip s).data.length
    cases hd : (pyStrip s).data with
    | nil => exact absurd hd hne
    | cons a l => simp
  simpa using hlen

/-! ## C4: age validation -/

/-- C4. `validate_age` accepts exactly the strings that `int` parses to a
value in `[15, 100]`, returning that value, and `None` otherwise; in
particular `"17"` and `"18"` are accepted while `"14"`, `"101"` and
`"abc"` are rejected. -/
theorem validate_age_range_iff :
    (∀ (s : String) (n : Int),
        validate_age s = some n ↔ pyInt s = some n ∧ 15 ≤ n ∧ n ≤ 100) ∧
    validate_age "17" = some 17 ∧ validate_age "14" = none ∧
    validate_age "101" = none ∧ validate_age "abc" = none ∧
    validate_age "18" = some 18 := by
  refine ⟨?_, by decide, by decide, by decide, by decide, by decide⟩
  intro s n
  cases h : pyInt s with
  | none =>
      have hv : validate_age s = none := by unfold validate_age; rw [h]
      simp [hv, h]
  | some a =>
      have hv : validate_age s = (if 15 ≤ a ∧ a ≤ 100 then some a else none) := by
        unfold validate_age; rw [h]
      rw [hv]
      by_cases hr : 15 ≤ a ∧ a ≤ 100
      · rw [if_pos hr]
        constructor
        · intro h2
          injection h2 with h2
          subst h2
          exact ⟨rfl, hr.1, hr.2⟩
        · rintro ⟨h1, _, _⟩
          exact h1
      · rw [if_neg hr]
        constructor
        · intro h0; cases h0
        · rintro ⟨h1, h2, h3⟩
          injection h1 with h1
          subst h1
          exact absurd ⟨h2, h3⟩ hr

/-! ## Id assignment on integer-id collections -/

theorem recId_dictGet {e : PyVal} {i : Int} (h : recId e = some i) :
    dictGet e "id" (.vInt 0) = some (.vInt i) := by
  cases e with
  | vDict kvs =>
      have h2 : (match kvs.lookup "id" with
          | some (PyVal.vInt j) => some j
          | _ => none) = some i := h
      show some ((kvs.lookup "id").getD (PyVal.vInt 0)) = some (PyVal.vInt i)
      cases hl : kvs.lookup "id" with
      | none => rw [hl] at h2; cases h2
      | some v =>
          rw [hl] at h2
          cases v
          case vInt j =>
            injection h2 with h2
            subst h2
            rfl
          all_goals cases h2
  | vNone => cases h
  | vBool b => cases h
  | vInt n => cases h
  | vFloat m e2 => cases h
  | vStr s => cases h
  | vList l => cases h

theorem idVals_of_idsOf {es : List PyVal} {ids : List Int}
    (h : idsOf es = some ids) :
    es.mapM (fun e => dictGet e "id" (.vInt 0)) = some (ids.map PyVal.vInt) := by
  induction es generalizing ids with
  | nil =>
      have h2 : (some [] : Option (List Int)) = some ids := h
      injection h2 with h2
      subst h2
      rfl
  | cons e t ih =>
      unfold idsOf at h
      rw [List.mapM_cons] at h
      rw [List.mapM_cons]
      cases hr : recId e with
      | none => rw [hr] at h; cases h
      | some i =>
          rw [hr] at h
          cases ht : t.mapM recId with
          | none => rw [ht] at h; cases h
          | some tids =>
              rw [ht] at h
              simp at h
              subst h
              rw [recId_dictGet hr, ih ht]
              rfl

theorem pyLt_int (a b : Int) : pyLt (.vInt a) (.vInt b) = some (decide (a < b)) := by
  simp [pyLt, numVal, decNumLt]

theorem pyMaxFrom_int (a : Int) (is : List Int) :
    pyMaxFrom (.vInt a) (is.map PyVal.vInt) = some (.vInt (is.foldl max a)) := by
  induction is generalizing a with
  | nil => rfl
  | cons b t ih =>
      have hstep : (if (decide (a < b) : Bool) then PyVal.vInt b else PyVal.vInt a)
          = PyVal.vInt (max a b) := by
        rcases lt_or_ge a b with h | h
        · simp [h, max_eq_right h.le]
        · simp [not_lt.mpr h, max_eq_left h]
      calc pyMaxFrom (.vInt a) ((b :: t).map PyVal.vInt)
          = pyMaxFrom (if (decide (a < b) : Bool) then PyVal.vInt b else PyVal.vInt a)
              (t.map PyVal.vInt) := by simp [pyMaxFrom, pyLt_int]
        _ = pyMaxFrom (.vInt (max a b)) (t.map PyVal.vInt) := by rw [hstep]
        _ = some (.vInt (t.foldl max (max a b))) := ih (max a b)
        _ = some (.vInt ((b :: t).foldl max a)) := by rw [List.foldl_cons]

theorem nextId_int {es : List PyVal} {ids : List Int} (h : idsOf es = some ids) :
    nextId es = some (.vInt (1 + maxInt ids)) := by
  unfold nextId
  rw [idVals_of_idsOf h]
  cases ids with
  | nil => rfl
  | cons i t =>
      show (some (((i :: t).map PyVal.vInt))).bind _ = _
      rw [Option.some_bind]
      show (pyMax (.vInt 0) ((i :: t).map PyVal.vInt)).bind _ = _
      rw [show pyMax (.vInt 0) ((i :: t).map PyVal.vInt)
            = pyMaxFrom (.vInt i) (t.map PyVal.vInt) from rfl,
          pyMaxFrom_int]
      rfl

theorem foldl_max_init_le (a : Int) (t : List Int) : a ≤ t.foldl max a := by
  induction t generalizing a with
  | nil => exact le_refl a
  | cons b u ih => exact le_trans (le_max_left a b) (ih (max a b))

theorem mem_le_foldl_max (t : List Int) (a : Int) : ∀ i ∈ t, i ≤ t.foldl max a := by
  induction t generalizing a with
  | nil => intro i hi; cases hi
  | cons b u ih =>
      intro i hi
      rcases List.mem_cons.mp hi with rfl | hi
      · exact le_trans (le_max_right a i) (foldl_max_init_le _ u)
      · exact ih (max a b) i hi

theorem mem_le_maxInt {ids : List Int} {i : Int} (h : i ∈ ids) : i ≤ maxInt ids := by
  cases ids with
  | nil => cases h
  | cons a t =>
      rcases List.mem_cons.mp h with rfl | h2
      · exact foldl_max_init_le i t
      · exact mem_le_foldl_max t a i h2

/-! ## C1: adding with valid inputs -/

/-- C1. On a collection of integer-id records and valid inputs, `add_employee`
appends exactly one record: id `1 + maxInt ids` (`1` when empty), name the
stripped name, age the parsed age, department the stripped department or
`"General"` when that is empty — and persists the new collection. -/
theorem add_employee_appends_assigned_id
    (employees : List PyVal) (ids : List Int) (nameRaw ageRaw deptRaw : String)
    (fs : FileSys) (a : Int)
    (hids : idsOf employees = some ids)
    (hname : pyStrip nameRaw ≠ "")
    (hage : pyInt ageRaw = some a) (hlo : 15 ≤ a) (hhi : a ≤ 100) :
    add_employee employees nameRaw ageRaw deptRaw fs =
      some (AddOutcome.ok
        (employees ++ [.vDict [("id", .vInt (1 + maxInt ids)),
          ("name", .vStr (pyStrip nameRaw)), ("age", .vInt a),
          ("department", .vStr (if pyStrip deptRaw = "" then "General"
            else pyStrip deptRaw))]])
        (.vInt (1 + maxInt ids)),
        save_data (employees ++ [.vDict [("id", .vInt (1 + maxInt ids)),
          ("name", .vStr (pyStrip nameRaw)), ("age", .vInt a),
          ("department", .vStr (if pyStrip deptRaw = "" then "General"
            else pyStrip deptRaw))]]) fs) := by
  have hvn := validate_name_strip nameRaw hname
  have hva : validate_age (pyStrip ageRaw) = some a := by
    rw [validate_age_strip]
    unfold validate_age
    rw [hage]
    simp [hlo, hhi]
  simp only [add_employee]
  rw [hvn, hva, nextId_int hids]
  simp

/-- Witness for C1 at a concrete valid input on the empty collection. -/
theorem add_employee_appends_assigned_id_inst :
    add_employee [] "Bob" "30" "Eng" emptyFS =
      some (AddOutcome.ok
        ([] ++ [.vDict [("id", .vInt (1 + maxInt [])),
          ("name", .vStr (pyStrip "Bob")), ("age", .vInt 30),
          ("department", .vStr (if pyStrip "Eng" = "" then "General"
            else pyStrip "Eng"))]])
        (.vInt (1 + maxInt [])),
        save_data ([] ++ [.vDict [("id", .vInt (1 + maxInt [])),
          ("name", .vStr (pyStrip "Bob")), ("age", .vInt 30),
          ("department", .vStr (if pyStrip "Eng" = "" then "General"
            else pyStrip "Eng"))]]) emptyFS) :=
  add_employee_appends_assigned_id [] [] "Bob" "30" "Eng" emptyFS 30 rfl
    (by decide) rfl (by decide) (by decide)

/-! ## Shape lemmas for add and delete -/

theorem add_ok_shape {es : List PyVal} {n a d : String} {fs fs2 : FileSys}
    {es2 : List PyVal} {v : PyVal}
    (h : add_employee es n a d fs = some (.ok es2 v, fs2)) :
    nextId es = some v ∧ ∃ age dept, es2 = es ++ [.vDict [("id", v),
      ("name", .vStr (pyStrip n)), ("age", .vInt age),
      ("department", .vStr dept)]] := by
  simp only [add_employee] at h
  by_cases h1 : validate_name (pyStrip n)
  · rw [if_neg (by simp [h1])] at h
    cases h2 : validate_age (pyStrip a) with
    | none => rw [h2] at h; simp at h
    | some age =>
        rw [h2] at h
        cases h3 : nextId es with
        | none => rw [h3] at h; cases h
        | some nid =>
            rw [h3] at h
            simp only [Option.some.injEq, Prod.mk.injEq, AddOutcome.ok.injEq] at h
            obtain ⟨⟨hes, hv⟩, _⟩ := h
            subst hv
            exact ⟨rfl, age, _, hes.symm⟩
  · rw [if_pos (by simp [h1])] at h
    simp at h

theorem delete_shape {es : List PyVal} {t : Int} {fs : FileSys} {es2 : List PyVal}
    {b : Bool} {fs2 : FileSys}
    (h : delete_by_id es t fs = some (es2, b, fs2)) :
    es2 = es ∨ ∃ i, es2 = es.eraseIdx i := by
  unfold delete_by_id at h
  cases hf : findDelIdx t es with
  | none => rw [hf] at h; cases h
  | some r =>
      rw [hf] at h
      cases r with
      | none =>
          simp only [Option.some.injEq, Prod.mk.injEq] at h
          exact Or.inl h.1.symm
      | some i =>
          simp only [Option.some.injEq, Prod.mk.injEq] at h
          exact Or.inr ⟨i, h.1.symm⟩

/-! ## The ids of a collection across operations -/

theorem idsOf_cons {e : PyVal} {t : List PyVal} {ids : List Int}
    (h : idsOf (e :: t) = some ids) :
    ∃ j tids, recId e = some j ∧ idsOf t = some tids ∧ ids = j :: tids := by
  unfold idsOf at h ⊢
  rw [List.mapM_cons] at h
  cases hr : recId e with
  | none => rw [hr] at h; cases h
  | some j =>
      rw [hr] at h
      cases ht : t.mapM recId with
      | none => rw [ht] at h; cases h
      | some tids =>
          rw [ht] at h
          simp at h
          exact ⟨j, tids, rfl, rfl, h.symm⟩

theorem idsOf_append {es1 es2 : List PyVal} {ids1 ids2 : List Int}
    (h1 : idsOf es1 = some ids1) (h2 : idsOf es2 = some ids2) :
    idsOf (es1 ++ es2) = some (ids1 ++ ids2) := by
  unfold idsOf at h1 h2 ⊢
  rw [List.mapM_append, h1, h2]
  rfl

theorem idsOf_eraseIdx {es : List PyVal} {ids : List Int}
    (h : idsOf es = some ids) :
    ∀ i, idsOf (es.eraseIdx i) = some (ids.eraseIdx i) := by
  induction es generalizing ids with
  | nil =>
      intro i
      have h2 : (some [] : Option (List Int)) = some ids := h
      injection h2 with h2
      subst h2
      rfl
  | cons e t ih =>
      intro i
      obtain ⟨j, tids, hr, ht, rfl⟩ := idsOf_cons h
      cases i with
      | zero => simpa [List.eraseIdx] using ht
      | succ k =>
          show idsOf (e :: t.eraseIdx k) = some (j :: tids.eraseIdx k)
          unfold idsOf
          rw [List.mapM_cons, hr]
          have := ih ht k
          unfold idsOf at this
          rw [this]
          rfl

theorem idsOf_mem {es : List PyVal} {ids : List Int} (h : idsOf es = some ids)
    {e : PyVal} (he : e ∈ es) {j : Int} (hj : recId e = some j) : j ∈ ids := by
  induction es generalizing ids with
  | nil => cases he
  | cons x t ih =>
      obtain ⟨j0, tids, hx, ht, rfl⟩ := idsOf_cons h
      rcases List.mem_cons.mp he with rfl | he2
      · rw [hx] at hj
        injection hj with hj
        subst hj
        exact List.mem_cons_self _ _
      · exact List.mem_cons_of_mem _ (ih ht he2)

theorem fresh_not_mem {ids : List Int} : (1 + maxInt ids) ∉ ids :=
  fun h => absurd (mem_le_maxInt h) (by omega)

/-- Any single menu action preserves "all ids are integers", and preserves
their distinctness. -/
theorem applyOp_idsOf {es : List PyVal} {ids : List Int} (fs : FileSys) (op : Op)
    (h : idsOf es = some ids) :
    ∃ ids2, idsOf (applyOp es fs op) = some ids2 ∧ (ids.Nodup → ids2.Nodup) := by
  cases op with
  | viewOp => exact ⟨ids, h, id⟩
  | searchOp q => exact ⟨ids, h, id⟩
  | addOp n a d =>
      show ∃ ids2, idsOf (match add_employee es n a d fs with
        | some (.ok es3 _, _) => es3 | _ => es) = some ids2 ∧ (ids.Nodup → ids2.Nodup)
      cases ha : add_employee es n a d fs with
      | none => exact ⟨ids, h, id⟩
      | some p =>
          obtain ⟨outcome, fs2⟩ := p
          cases outcome with
          | badName => exact ⟨ids, h, id⟩
          | badAge => exact ⟨ids, h, id⟩
          | ok es2 v =>
              obtain ⟨hnext, age, dept, hes2⟩ := add_ok_shape ha
              rw [nextId_int h] at hnext
              injection hnext with hnext
              subst hnext
              subst hes2
              refine ⟨ids ++ [1 + maxInt ids], idsOf_append h rfl, fun hnd => ?_⟩
              rw [List.nodup_append]
              exact ⟨hnd, List.nodup_singleton _,
                fun x hx hx2 => by
                  rw [List.mem_singleton] at hx2
                  exact fresh_not_mem (hx2 ▸ hx)⟩
  | delOp t =>
      show ∃ ids2, idsOf (match delete_by_id es t fs with
        | some (es3, _, _) => es3 | none => es) = some ids2 ∧ (ids.Nodup → ids2.Nodup)
      cases hd : delete_by_id es t fs with
      | none => exact ⟨ids, h, id⟩
      | some p =>
          obtain ⟨es2, b, fs2⟩ := p
          rcases delete_shape hd with rfl | ⟨i, rfl⟩
          · exact ⟨ids, h, id⟩
          · exact ⟨ids.eraseIdx i, idsOf_eraseIdx h i,
              fun hnd => hnd.sublist (List.eraseIdx_sublist ids i)⟩

theorem runScript_idsOf (ops : List Op) :
    ∃ ids, idsOf (runScript ops) = some ids := by
  induction ops using List.reverseRecOn with
  | nil => exact ⟨[], rfl⟩
  | append_singleton ops op ih =>
      obtain ⟨ids, h⟩ := ih
      obtain ⟨ids2, h2, _⟩ := applyOp_idsOf emptyFS op h
      refine ⟨ids2, ?_⟩
      show idsOf (List.foldl (fun es op => applyOp es emptyFS op) [] (ops ++ [op]))
        = some ids2
      rw [List.foldl_append, List.foldl_cons, List.foldl_nil]
      exact h2

/-! ## C3: distinct ids are preserved by every operation -/

/-- C3. If every record has an integer id and the ids are pairwise distinct,
then after any single menu operation (add, delete, view, search) the
resulting collection still has pairwise-distinct integer ids. -/
theorem ops_preserve_distinct_ids (employees : List PyVal) (ids : List Int)
    (fs : FileSys) (op : Op) (hids : idsOf employees = some ids)
    (hnd : ids.Nodup) :
    ∃ ids2, idsOf (applyOp employees fs op) = some ids2 ∧ ids2.Nodup := by
  obtain ⟨ids2, h1, h2⟩ := applyOp_idsOf fs op hids
  exact ⟨ids2, h1, h2 hnd⟩

/-- Witness for C3 at a concrete collection and operation. -/
theorem ops_preserve_distinct_ids_inst :
    ∃ ids2, idsOf (applyOp [PyVal.vDict [("id", PyVal.vInt 1)]] emptyFS
      (Op.delOp 1)) = some ids2 ∧ ids2.Nodup :=
  ops_preserve_distinct_ids [PyVal.vDict [("id", PyVal.vInt 1)]] [1] emptyFS
    (Op.delOp 1) rfl (by decide)

/-! ## C2: id reuse after deletion -/

/-- The record `add A 20 Dev` creates on the empty collection. -/
def recA : PyVal := .vDict [("id", .vInt 1), ("name", .vStr "A"),
  ("age", .vInt 20), ("department", .vStr "Dev")]

/-- The record the following `add B 21 Dev` creates. -/
def recB : PyVal := .vDict [("id", .vInt 2), ("name", .vStr "B"),
  ("age", .vInt 21), ("department", .vStr "Dev")]

/-- The record a later `add C 22 Dev` creates after `delete 2`. -/
def recC : PyVal := .vDict [("id", .vInt 2), ("name", .vStr "C"),
  ("age", .vInt 22), ("department", .vStr "Dev")]

/-- C2 refuted: from the empty collection, two adds assign ids 1 and 2;
deleting id 2 succeeds; the next add then assigns id 2 again — an id that
was previously assigned and later deleted is reused. -/
theorem next_id_reuse_after_delete :
    runScript [.addOp "A" "20" "Dev", .addOp "B" "21" "Dev"] = [recA, recB] ∧
    delete_by_id [recA, recB] 2 emptyFS =
      some ([recA], true, save_data [recA] emptyFS) ∧
    runScript [.addOp "A" "20" "Dev", .addOp "B" "21" "Dev", .delOp 2] = [recA] ∧
    add_employee [recA] "C" "22" "Dev" emptyFS =
      some (.ok [recA, recC] (.vInt 2), save_data [recA, recC] emptyFS) :=
  ⟨rfl, rfl, rfl, rfl⟩

/-- C2 amended: in any run from the empty collection, the id an add assigns
is distinct from every id present in the collection at that moment (but a
deleted id may be reassigned, as `next_id_reuse_after_delete` shows). -/
theorem add_assigns_fresh_id (ops : List Op) (nameRaw ageRaw deptRaw : String)
    (fs fs2 : FileSys) (es2 : List PyVal) (i : Int)
    (hadd : add_employee (runScript ops) nameRaw ageRaw deptRaw fs
      = some (.ok es2 (.vInt i), fs2)) :
    ∀ e ∈ runScript ops, recId e ≠ some i := by
  obtain ⟨ids, hids⟩ := runScript_idsOf ops
  obtain ⟨hnext, _, _, _⟩ := add_ok_shape hadd
  rw [nextId_int hids] at hnext
  injection hnext with hnext
  injection hnext with hnext
  intro e he hrec
  have hmem := idsOf_mem hids he hrec
  have hle := mem_le_maxInt hmem
  omega

/-- Witness for the amended C2 on a concrete run. -/
theorem add_assigns_fresh_id_inst : recId recA ≠ some 2 :=
  add_assigns_fresh_id [Op.addOp "A" "20" "Dev"] "B" "21" "Dev" emptyFS
    (save_data [recA, recB] emptyFS) [recA, recB] 2 rfl recA
    (by rw [show runScript [Op.addOp "A" "20" "Dev"] = [recA] from rfl]
        exact List.mem_singleton.mpr rfl)

/-! ## C7: search -/

theorem isSubL_nil (s : List Char) : isSubL [] s = true := by
  cases s with
  | nil => rfl
  | cons c t => simp [isSubL, List.isPrefixOf]

theorem isSubL_iff (p s : List Char) : isSubL p s = true ↔ p <:+: s := by
  induction s with
  | nil =>
      show p.isEmpty = true ↔ _
      rw [List.isEmpty_iff, List.infix_nil]
  | cons c t ih =>
      show (p.isPrefixOf (c :: t) || isSubL p t) = true ↔ _
      rw [Bool.or_eq_true, List.isPrefixOf_iff_prefix, ih, List.infix_cons_iff]

theorem findAux_filter (qd : List Char) (es : List PyVal)
    (h : ∀ e ∈ es, (lowerName e).isSome) :
    findAux qd es = some (es.filter (fun e =>
      isSubL qd ((lowerName e).getD "").data)) := by
  induction es with
  | nil => rfl
  | cons e t ih =>
      obtain ⟨nm, hnm⟩ := Option.isSome_iff_exists.mp (h e (List.mem_cons_self ..))
      have ht := ih (fun x hx => h x (List.mem_cons_of_mem _ hx))
      rw [List.filter_cons]
      simp [findAux, hnm, ht, Option.getD]

/-- C7. On a collection whose records carry string (or missing) names,
`find_by_name` returns exactly the records whose lowered name contains the
lowered stripped query as a contiguous substring (`isSubL`, equivalent to
`List.IsInfix`), in original collection order; a query that strips to the
empty string returns every record; and `"ali"` matches `"Alice"`. -/
theorem find_by_name_filter_spec :
    (∀ p s : List Char, isSubL p s = true ↔ p <:+: s) ∧
    (∀ (employees : List PyVal) (q : String),
      (∀ e ∈ employees, (lowerName e).isSome) →
      find_by_name employees q = some (employees.filter (fun e =>
        isSubL (pyLower (pyStrip q)).data ((lowerName e).getD "").data))) ∧
    (∀ (employees : List PyVal) (q : String),
      (∀ e ∈ employees, (lowerName e).isSome) → pyStrip q = "" →
      find_by_name employees q = some employees) ∧
    find_by_name [.vDict [("name", .vStr "Alice")]] "ali" =
      some [.vDict [("name", .vStr "Alice")]] := by
  have hmain : ∀ (employees : List PyVal) (q : String),
      (∀ e ∈ employees, (lowerName e).isSome) →
      find_by_name employees q = some (employees.filter (fun e =>
        isSubL (pyLower (pyStrip q)).data ((lowerName e).getD "").data)) :=
    fun employees q h => findAux_filter _ employees h
  refine ⟨isSubL_iff, hmain, ?_, rfl⟩
  intro employees q h hq
  rw [hmain employees q h, hq]
  have hfilter : employees.filter (fun e =>
      isSubL (pyLower (pyStrip "")).data ((lowerName e).getD "").data) = employees := by
    apply List.filter_eq_self.mpr
    intro e _
    exact isSubL_nil _
  rw [show pyStrip "" = "" from rfl] at hfilter
  rw [hfilter]

/-- Witness for C7: the filter form, the empty query, and the `isSubL`
reading, each at a concrete instance. -/
theorem find_by_name_filter_spec_inst :
    find_by_name [PyVal.vDict [("name", PyVal.vStr "Alice")]] "LIC" =
      some ([PyVal.vDict [("name", PyVal.vStr "Alice")]].filter (fun e =>
        isSubL (pyLower (pyStrip "LIC")).data ((lowerName e).getD "").data)) ∧
    find_by_name [PyVal.vDict [("name", PyVal.vStr "Alice")]] "  " =
      some [PyVal.vDict [("name", PyVal.vStr "Alice")]] ∧
    (isSubL "li".data "alice".data = true ↔ "li".data <:+: "alice".data) :=
  ⟨find_by_name_filter_spec.2.1 _ "LIC" (by decide),
   find_by_name_filter_spec.2.2.1 _ "  " (by decide) (by decide),
   find_by_name_filter_spec.1 _ _⟩

/-! ## C8: deletion -/

theorem findDelIdx_first (tid : Int) (pre : List PyVal)
    (kvs : List (String × PyVal)) (post : List PyVal)
    (hpre : ∀ x ∈ pre, ∃ kx, x = PyVal.vDict kx ∧
      idEq ((kx.lookup "id").getD .vNone) tid = false)
    (hm : idEq ((kvs.lookup "id").getD .vNone) tid = true) :
    findDelIdx tid (pre ++ PyVal.vDict kvs :: post) = some (some pre.length) := by
  induction pre with
  | nil => simp [findDelIdx, hm]
  | cons x p ih =>
      obtain ⟨kx, rfl, hx⟩ := hpre x (List.mem_cons_self ..)
      have hp := ih (fun y hy => hpre y (List.mem_cons_of_mem _ hy))
      simp [findDelIdx, hx, hp]

theorem findDelIdx_none (tid : Int) (es : List PyVal)
    (h : ∀ x ∈ es, ∃ kx, x = PyVal.vDict kx ∧
      idEq ((kx.lookup "id").getD .vNone) tid = false) :
    findDelIdx tid es = some none := by
  induction es with
  | nil => rfl
  | cons x t ih =>
      obtain ⟨kx, rfl, hx⟩ := h x (List.mem_cons_self ..)
      simp [findDelIdx, hx, ih (fun y hy => h y (List.mem_cons_of_mem _ hy))]

/-- C8. When the collection splits as `pre ++ [match] ++ post` with no match
in `pre`, delete removes exactly that first matching record, keeps every
other record in order, persists the result, and reports success; when no
record matches, it reports failure, leaves the collection unchanged, and
does not touch the file. -/
theorem delete_by_id_spec :
    (∀ (pre : List PyVal) (kvs : List (String × PyVal)) (post : List PyVal)
        (tid : Int) (fs : FileSys),
      (∀ x ∈ pre, ∃ kx, x = PyVal.vDict kx ∧
        idEq ((kx.lookup "id").getD .vNone) tid = false) →
      idEq ((kvs.lookup "id").getD .vNone) tid = true →
      delete_by_id (pre ++ PyVal.vDict kvs :: post) tid fs =
        some (pre ++ post, true, save_data (pre ++ post) fs)) ∧
    (∀ (employees : List PyVal) (tid : Int) (fs : FileSys),
      (∀ x ∈ employees, ∃ kx, x = PyVal.vDict kx ∧
        idEq ((kx.lookup "id").getD .vNone) tid = false) →
      delete_by_id employees tid fs = some (employees, false, fs)) := by
  constructor
  · intro pre kvs post tid fs hpre hm
    unfold delete_by_id
    rw [findDelIdx_first tid pre kvs post hpre hm]
    have herase : (pre ++ PyVal.vDict kvs :: post).eraseIdx pre.length = pre ++ post := by
      rw [List.eraseIdx_append_of_length_le (le_refl pre.length)]
      simp [List.eraseIdx]
    simp [herase]
  · intro es tid fs h
    unfold delete_by_id
    rw [findDelIdx_none tid es h]

/-- Witness for C8: deleting id 1 from `[recA]` (id 1) succeeds and saves;
deleting id 1 from `[recB]` (id 2) fails and leaves the file alone. -/
theorem delete_by_id_spec_inst :
    delete_by_id [recA] 1 emptyFS =
      some ([] ++ [], true, save_data ([] ++ []) emptyFS) ∧
    delete_by_id [recB] 1 emptyFS = some ([recB], false, emptyFS) := by
  constructor
  · exact delete_by_id_spec.1 [] [("id", .vInt 1), ("name", .vStr "A"),
      ("age", .vInt 20), ("department", .vStr "Dev")] [] 1 emptyFS
      (by intro x hx; cases hx) (by decide)
  · refine delete_by_id_spec.2 [recB] 1 emptyFS ?_
    intro x hx
    rw [List.mem_singleton] at hx
    subst hx
    exact ⟨[("id", .vInt 2), ("name", .vStr "B"), ("age", .vInt 21),
      ("department", .vStr "Dev")], rfl, by decide⟩

/-! ## C9: rendering the table -/

/-- Whether a cell value accepts a width format spec: absent fields and the
record field types (`int`, `str`) do; `None`, lists and dicts raise. -/
def cellOkB : Option PyVal → Bool
  | none => true
  | some (.vInt _) => true
  | some (.vStr _) => true
  | some _ => false

/-- A record whose four displayed fields are each missing, an int, or a
string — the shapes `view_all` renders without raising. -/
def recRenderOk : PyVal → Bool
  | .vDict kvs => cellOkB (kvs.lookup "id") && cellOkB (kvs.lookup "name") &&
      cellOkB (kvs.lookup "age") && cellOkB (kvs.lookup "department")
  | _ => false

/-- Spec-side cell text: a missing field renders as the empty string. -/
def cellText (kvs : List (String × PyVal)) (key : String) : String :=
  match kvs.lookup key with
  | none => ""
  | some (.vInt n) => ⟨intChars n⟩
  | some (.vStr s) => s
  | some _ => ""

/-- Spec-side row text built from `cellText`. -/
def rowTextOf (e : PyVal) : String :=
  match e with
  | .vDict kvs =>
      padTo 4 (cellText kvs "id") ++ " " ++ padTo 20 (cellText kvs "name") ++
        " " ++ padTo 4 (cellText kvs "age") ++ " " ++
        padTo 15 (cellText kvs "department") ++ "\n"
  | _ => ""

theorem cellOf_ok {kvs : List (String × PyVal)} {key : String}
    (h : cellOkB (kvs.lookup key) = true) :
    cellOf (PyVal.vDict kvs) key = some (cellText kvs key) := by
  show (some ((kvs.lookup key).getD (.vStr ""))).bind fmtCell = some (cellText kvs key)
  cases hl : kvs.lookup key with
  | none => simp [cellText, hl, fmtCell]
  | some v =>
      rw [hl] at h
      cases v
      case vInt n => simp [cellText, hl, fmtCell]
      case vStr s => simp [cellText, hl, fmtCell]
      all_goals cases h

theorem rowOf_ok {e : PyVal} (h : recRenderOk e = true) :
    rowOf e = some (rowTextOf e) := by
  cases e with
  | vDict kvs =>
      have h4 : cellOkB (kvs.lookup "id") = true ∧
          cellOkB (kvs.lookup "name") = true ∧
          cellOkB (kvs.lookup "age") = true ∧
          cellOkB (kvs.lookup "department") = true := by
        simpa [recRenderOk, Bool.and_eq_true, and_assoc] using h
      simp [rowOf, cellOf_ok h4.1, cellOf_ok h4.2.1, cellOf_ok h4.2.2.1,
        cellOf_ok h4.2.2.2, rowTextOf]
  | vNone => cases h
  | vBool b => cases h
  | vInt n => cases h
  | vFloat m e2 => cases h
  | vStr s => cases h
  | vList l => cases h

theorem mapM_rowOf (es : List PyVal) (h : ∀ e ∈ es, recRenderOk e = true) :
    es.mapM rowOf = some (es.map rowTextOf) := by
  induction es with
  | nil => rfl
  | cons e t ih =>
      rw [List.mapM_cons, rowOf_ok (h e (List.mem_cons_self ..)),
        ih (fun x hx => h x (List.mem_cons_of_mem _ hx))]
      rfl

/-- C9. The empty collection prints `No employees.`; a nonempty collection
of records whose present fields are ints or strings always renders (never
raising on missing keys), each missing field shown as the empty string
(`cellText`). -/
theorem view_all_total_spec :
    view_all [] = some "No employees.\n" ∧
    (∀ employees : List PyVal, employees ≠ [] →
      (∀ e ∈ employees, recRenderOk e = true) →
      view_all employees = some (dashes ++ "\n" ++ headerRow ++ dashes ++ "\n" ++
        String.join (employees.map rowTextOf) ++ dashes ++ "\n")) := by
  refine ⟨rfl, ?_⟩
  intro es hne h
  cases es with
  | nil => exact absurd rfl hne
  | cons e t =>
      show (do
        let rows ← (e :: t).mapM rowOf
        pure (dashes ++ "\n" ++ headerRow ++ dashes ++ "\n" ++
          String.join rows ++ dashes ++ "\n")) = _
      rw [mapM_rowOf (e :: t) h]
      rfl

/-- Witness for C9 at a record with every field missing. -/
theorem view_all_total_spec_inst :
    view_all [PyVal.vDict []] = some (dashes ++ "\n" ++ headerRow ++ dashes ++
      "\n" ++ String.join ([PyVal.vDict []].map rowTextOf) ++ dashes ++ "\n") :=
  view_all_total_spec.2 [PyVal.vDict []] (by intro h; cases h)
    (by intro e he; rw [List.mem_singleton] at he; subst he; rfl)

/-! ## C10: the id computation is partial -/

theorem idVals_total {es : List PyVal}
    (h : ∀ e ∈ es, ∃ kvs, e = PyVal.vDict kvs ∧
      (∀ v, kvs.lookup "id" = some v → ∃ n, v = PyVal.vInt n)) :
    ∃ js : List Int,
      es.mapM (fun e => dictGet e "id" (.vInt 0)) = some (js.map PyVal.vInt) := by
  induction es with
  | nil => exact ⟨[], rfl⟩
  | cons e t ih =>
      obtain ⟨kvs, rfl, hv⟩ := h e (List.mem_cons_self ..)
      obtain ⟨js, hjs⟩ := ih (fun x hx => h x (List.mem_cons_of_mem _ hx))
      cases hl : kvs.lookup "id" with
      | none =>
          refine ⟨0 :: js, ?_⟩
          rw [List.mapM_cons, hjs]
          simp [dictGet, hl]
      | some v =>
          obtain ⟨n, rfl⟩ := hv v hl
          refine ⟨n :: js, ?_⟩
          rw [List.mapM_cons, hjs]
          simp [dictGet, hl]

/-- C10. A loadable collection whose record carries a string id makes the
`1 + max(...)` id computation raise, so `add_employee` fails rather than
completing; a missing id is tolerated and counted as `0`; and over
collections whose present ids are all integers the computation always
succeeds. -/
theorem next_id_partiality :
    loads "[\x7b\"id\": \"x\"\x7d]" = some (.vList [.vDict [("id", .vStr "x")]]) ∧
    add_employee [.vDict [("id", .vStr "x")]] "Bob" "30" "Eng" emptyFS = none ∧
    nextId [.vDict [("name", .vStr "A")]] = some (.vInt 1) ∧
    (∀ es : List PyVal,
      (∀ e ∈ es, ∃ kvs, e = PyVal.vDict kvs ∧
        (∀ v, kvs.lookup "id" = some v → ∃ n, v = PyVal.vInt n)) →
      ∃ v, nextId es = some v) := by
  refine ⟨rfl, rfl, rfl, ?_⟩
  intro es h
  obtain ⟨js, hjs⟩ := idVals_total h
  unfold nextId
  rw [hjs]
  cases js with
  | nil => exact ⟨.vInt 1, rfl⟩
  | cons j t =>
      refine ⟨.vInt (1 + t.foldl max j), ?_⟩
      show (some ((j :: t).map PyVal.vInt)).bind _ = _
      rw [Option.some_bind]
      show (pyMax (.vInt 0) ((j :: t).map PyVal.vInt)).bind _ = _
      rw [show pyMax (.vInt 0) ((j :: t).map PyVal.vInt)
            = pyMaxFrom (.vInt j) (t.map PyVal.vInt) from rfl, pyMaxFrom_int]
      rfl

/-- Witness for C10's totality part at a concrete integer-id collection. -/
theorem next_id_partiality_inst :
    ∃ v, nextId [PyVal.vDict [("id", PyVal.vInt 5)]] = some v :=
  next_id_partiality.2.2.2 [PyVal.vDict [("id", PyVal.vInt 5)]]
    (by
      intro e he
      rw [List.mem_singleton] at he
      subst he
      exact ⟨_, rfl, fun v hv => by
        injection hv with hv
        exact ⟨5, hv.symm⟩⟩)

/-! ## C5: load failure modes -/

/-- C5. Load yields the empty collection exactly on the three failure modes
— missing file, unparseable content, non-array top level — and otherwise
returns the decoded array verbatim with no per-record validation; the
content `"not json"` fails to parse, and a JSON object parses but is not an
array. -/
theorem load_data_failure_modes :
    (∀ (fs : FileSys) (filename : String), fs filename = none →
      load_data fs filename = []) ∧
    (∀ (fs : FileSys) (filename content : String),
      fs filename = some content → loads content = none →
      load_data fs filename = []) ∧
    (∀ (fs : FileSys) (filename content : String) (xs : List PyVal),
      fs filename = some content → loads content = some (.vList xs) →
      load_data fs filename = xs) ∧
    (∀ (fs : FileSys) (filename content : String) (v : PyVal),
      fs filename = some content → loads content = some v →
      (∀ xs, v ≠ .vList xs) → load_data fs filename = []) ∧
    loads "not json" = none ∧
    loads "\x7b\"a\": 1\x7d" = some (.vDict [("a", .vInt 1)]) := by
  refine ⟨?_, ?_, ?_, ?_, rfl, rfl⟩
  · intro fs fn h
    unfold load_data
    rw [h]
  · intro fs fn c h h2
    unfold load_data
    rw [h]
    show (match loads c with | some (.vList xs) => xs | _ => ([] : List PyVal)) = _
    rw [h2]
  · intro fs fn c xs h h2
    unfold load_data
    rw [h]
    show (match loads c with | some (.vList xs) => xs | _ => ([] : List PyVal)) = _
    rw [h2]
  · intro fs fn c v h h2 h3
    unfold load_data
    rw [h]
    show (match loads c with | some (.vList xs) => xs | _ => ([] : List PyVal)) = _
    rw [h2]
    cases v with
    | vList xs => exact absurd rfl (h3 xs)
    | vNone => rfl
    | vBool b => rfl
    | vInt n => rfl
    | vFloat m e => rfl
    | vStr s => rfl
    | vDict kvs => rfl

/-- Witness for C5 on three concrete file systems. -/
theorem load_data_failure_modes_inst :
    load_data emptyFS DATA_FILE = [] ∧
    load_data (fun _ => some "not json") DATA_FILE = [] ∧
    load_data (fun _ => some "[1]") DATA_FILE = [.vInt 1] :=
  ⟨load_data_failure_modes.1 emptyFS DATA_FILE rfl,
   load_data_failure_modes.2.1 (fun _ => some "not json") DATA_FILE "not json"
     rfl rfl,
   load_data_failure_modes.2.2.1 (fun _ => some "[1]") DATA_FILE "[1]"
     [.vInt 1] rfl rfl⟩

/-! ## C6 groundwork: digits and number tokens invert the renderer -/

theorem digit_facts : ∀ k, k < 10 → isDig (Char.ofNat (48 + k)) = true ∧
    digitVal (Char.ofNat (48 + k)) = k ∧ (0 < k → Char.ofNat (48 + k) ≠ '0') := by
  decide

theorem natChars_digits (n : Nat) : ∀ c ∈ natChars n, isDig c = true := by
  induction n using Nat.strongRecOn with
  | _ n ih =>
      rw [natChars]
      by_cases h : n < 10
      · simp only [if_pos h]
        intro c hc
        rw [List.mem_singleton] at hc
        subst hc
        exact (digit_facts n h).1
      · simp only [if_neg h]
        intro c hc
        rcases List.mem_append.mp hc with h1 | h1
        · exact ih (n / 10) (by omega) c h1
        · rw [List.mem_singleton] at h1
          subst h1
          exact (digit_facts (n % 10) (by omega)).1

theorem natChars_cons (n : Nat) : ∃ c t, natChars n = c :: t ∧
    isDig c = true ∧ (0 < n → c ≠ '0') := by
  induction n using Nat.strongRecOn with
  | _ n ih =>
      by_cases h : n < 10
      · refine ⟨Char.ofNat (48 + n), [], by rw [natChars, if_pos h],
          (digit_facts n h).1, fun hp => (digit_facts n h).2.2 hp⟩
      · obtain ⟨c, t, hct, hd, h0⟩ := ih (n / 10) (by omega)
        refine ⟨c, t ++ [Char.ofNat (48 + n % 10)], ?_, hd,
          fun _ => h0 (by omega)⟩
        rw [natChars, if_neg h, hct]
        rfl

theorem digitsVal_snoc (ds : List Char) (c : Char) :
    digitsVal (ds ++ [c]) = digitsVal ds * 10 + digitVal c := by
  unfold digitsVal
  rw [List.foldl_append]
  rfl

theorem digitsVal_natChars (n : Nat) : digitsVal (natChars n) = n := by
  induction n using Nat.strongRecOn with
  | _ n ih =>
      rw [natChars]
      by_cases h : n < 10
      · simp only [if_pos h]
        show digitsVal ([] ++ [Char.ofNat (48 + n)]) = n
        rw [digitsVal_snoc, (digit_facts n h).2.1]
        have h0 : digitsVal ([] : List Char) = 0 := rfl
        omega
      · simp only [if_neg h]
        rw [digitsVal_snoc, ih (n / 10) (by omega),
          (digit_facts (n % 10) (by omega)).2.1]
        omega

theorem takeDigits_not_dig {c : Char} (t : List Char) (h : isDig c = false) :
    takeDigits (c :: t) = ([], c :: t) := by
  simp [takeDigits, h]

theorem takeDigits_run (tail : List Char)
    (htail : takeDigits tail = ([], tail)) :
    ∀ ds, (∀ c ∈ ds, isDig c = true) → takeDigits (ds ++ tail) = (ds, tail) := by
  intro ds
  induction ds with
  | nil =>
      intro _
      simpa using htail
  | cons c t ih =>
      intro hds
      have hc : isDig c = true := hds c (List.mem_cons_self ..)
      simp [takeDigits, hc, ih (fun x hx => hds x (List.mem_cons_of_mem _ hx))]

/-- A remainder that cannot extend a number token: empty, or led by a
character that is no digit and none of `.`, `e`, `E`. Every separator the
pretty printer emits after a value qualifies. -/
def numBreak : List Char → Bool
  | [] => true
  | c :: _ => !(isDig c || c = '.' || c = 'e' || c = 'E')

theorem numBreak_head {c : Char} {t : List Char} (h : numBreak (c :: t) = true) :
    isDig c = false ∧ c ≠ '.' ∧ c ≠ 'e' ∧ c ≠ 'E' := by
  simp [numBreak] at h
  exact ⟨h.1.1.1, h.1.1.2, h.1.2, h.2⟩

theorem takeDigits_of_numBreak {rest : List Char} (h : numBreak rest = true) :
    takeDigits rest = ([], rest) := by
  cases rest with
  | nil => rfl
  | cons c t => exact takeDigits_not_dig t (numBreak_head h).1

theorem fracPart_of_numBreak {rest : List Char} (h : numBreak rest = true) :
    fracPart rest = ([], rest) := by
  cases rest with
  | nil => rfl
  | cons c t => simp [fracPart, (numBreak_head h).2.1]

theorem expPart_of_numBreak {rest : List Char} (h : numBreak rest = true) :
    expPart rest = (false, 0, rest) := by
  cases rest with
  | nil => rfl
  | cons c t =>
      have h2 := numBreak_head h
      simp [expPart, h2.2.2.1, h2.2.2.2]

theorem isDig_bounds {c : Char} (h : isDig c = true) :
    48 ≤ c.toNat ∧ c.toNat ≤ 57 := by
  simpa [isDig] using h

theorem isDig_ne {c : Char} (h : isDig c = true) (d : Char)
    (hd : d.toNat < 48 ∨ 57 < d.toNat) : c ≠ d := by
  obtain ⟨h1, h2⟩ := isDig_bounds h
  intro he
  subst he
  omega

/-- `readNum` on a rendered integer reduces to `numTail` over its digits. -/
theorem readNum_to_numTail (n : Int) (rest2 : List Char)
    (hstop : takeDigits rest2 = ([], rest2)) :
    readNum (intChars n ++ rest2) = numTail (decide (n < 0)) (natChars n.natAbs) rest2 := by
  obtain ⟨c, t, hct, hcd, hc0⟩ := natChars_cons n.natAbs
  have hdigits : ∀ x ∈ c :: t, isDig x = true := hct ▸ natChars_digits n.natAbs
  have htd : takeDigits (c :: (t ++ rest2)) = (c :: t, rest2) := by
    rw [← List.cons_append]
    exact takeDigits_run _ hstop _ hdigits
  rcases lt_trichotomy n 0 with hneg | hzero | hpos
  · have hcz : c ≠ '0' := hc0 (by omega)
    have harg : intChars n ++ rest2 = '-' :: (c :: (t ++ rest2)) := by
      simp [intChars, hneg, hct]
    rw [harg]
    simp [readNum, negSplit, hcd, hcz, htd, hneg, hct]
  · subst hzero
    have h0 : intChars (0 : Int) ++ rest2 = '0' :: rest2 := by
      rw [intChars, natChars]
      rfl
    have h1 : natChars (Int.natAbs 0) = ['0'] := by
      rw [Int.natAbs_zero, natChars]
      decide
    rw [h0, h1]
    simp [readNum, negSplit, show isDig '0' = true from by decide]
  · have hcz : c ≠ '0' := hc0 (by omega)
    have hcm : c ≠ '-' := isDig_ne hcd '-' (by decide)
    have harg : intChars n ++ rest2 = c :: (t ++ rest2) := by
      simp [intChars, not_lt.mpr (le_of_lt hpos), hct]
    rw [harg]
    simp [readNum, negSplit, hcd, hcz, hcm, htd, not_lt.mpr (le_of_lt hpos), hct]

/-- The number token reader inverts the integer renderer. -/
theorem readNum_int (n : Int) (rest : List Char) (hr : numBreak rest = true) :
    readNum (intChars n ++ rest) = some (.vInt n, rest) := by
  rw [readNum_to_numTail n rest (takeDigits_of_numBreak hr)]
  simp [numTail, fracPart_of_numBreak hr, expPart_of_numBreak hr,
    digitsVal_natChars]
  rcases lt_or_ge n 0 with h | h
  · rw [if_pos h, abs_of_neg h]
    omega
  · rw [if_neg (not_lt.mpr h), abs_of_nonneg h]

/-- The number token reader inverts the float renderer. -/
theorem readNum_float (m e : Int) (rest : List Char) (hr : numBreak rest = true) :
    readNum ((intChars m ++ 'e' :: intChars e) ++ rest) =
      some (.vFloat m e, rest) := by
  have harr : (intChars m ++ 'e' :: intChars e) ++ rest
      = intChars m ++ ('e' :: (intChars e ++ rest)) := by
    rw [List.append_assoc]
    rfl
  have hstopE : takeDigits ('e' :: (intChars e ++ rest)) =
      ([], 'e' :: (intChars e ++ rest)) :=
    takeDigits_not_dig _ (by decide)
  rw [harr, readNum_to_numTail m _ hstopE]
  have hfrac : fracPart ('e' :: (intChars e ++ rest)) =
      ([], 'e' :: (intChars e ++ rest)) := by
    simp [fracPart]
  obtain ⟨c2, t2, hct2, hcd2, hc02⟩ := natChars_cons e.natAbs
  have hdig2 : ∀ x ∈ c2 :: t2, isDig x = true := hct2 ▸ natChars_digits e.natAbs
  have htd2 : takeDigits (c2 :: (t2 ++ rest)) = (c2 :: t2, rest) := by
    rw [← List.cons_append]
    exact takeDigits_run _ (takeDigits_of_numBreak hr) _ hdig2
  have hdv2 : digitsVal (c2 :: t2) = e.natAbs := by rw [← hct2, digitsVal_natChars]
  have hexp : expPart ('e' :: (intChars e ++ rest)) = (true, e, rest) := by
    rcases lt_or_ge e 0 with he | he
    · have harg : intChars e ++ rest = '-' :: (c2 :: (t2 ++ rest)) := by
        simp [intChars, he, hct2]
      simp only [expPart]
      rw [harg]
      simp [sgnSplit, htd2, hdv2, abs_of_neg he]
    · have hcm2 : c2 ≠ '-' := isDig_ne hcd2 '-' (by decide)
      have hcp2 : c2 ≠ '+' := isDig_ne hcd2 '+' (by decide)
      have harg : intChars e ++ rest = c2 :: (t2 ++ rest) := by
        simp [intChars, not_lt.mpr he, hct2]
      simp only [expPart]
      rw [harg]
      simp [sgnSplit, hcm2, hcp2, htd2, hdv2, abs_of_nonneg he]
  simp [numTail, hfrac, hexp, digitsVal_natChars]
  rcases lt_or_ge m 0 with h | h
  · rw [if_pos h, abs_of_neg h]
    omega
  · rw [if_neg (not_lt.mpr h), abs_of_nonneg h]

/-! ## C6 groundwork: strings invert the escaper -/

theorem hexNum_hexDig : ∀ k, k < 16 → hexNum (hexDig k) = some k := by decide

theorem escDecode_unicode (a b c2 d : Char) (rest : List Char) (n : Nat)
    (hq : hexQuad a b c2 d = some n) (hlow : n < 0xd800) :
    escDecode ('u' :: a :: b :: c2 :: d :: rest) = some (Char.ofNat n, rest) := by
  have h0 : escDecode ('u' :: a :: b :: c2 :: d :: rest)
      = (match hexQuad a b c2 d with
         | none => none
         | some n2 =>
             if n2 < 0xd800 ∨ 0xe000 ≤ n2 then some (Char.ofNat n2, rest)
             else if n2 < 0xdc00 then
               (match rest with
                | s1 :: s2 :: a2 :: b2 :: c3 :: d2 :: r3 =>
                    if s1 = '\\' ∧ s2 = 'u' then
                      match hexQuad a2 b2 c3 d2 with
                      | some m =>
                          if 0xdc00 ≤ m ∧ m < 0xe000 then some (pairChar n2 m, r3)
                          else none
                      | none => none
                    else none
                | _ => none)
             else none) := rfl
  rw [h0, hq]
  simp [hlow]

theorem esc_step (f : Nat) (c : Char) (acc rest : List Char) :
    readStrBody (f + 1) acc (esc c ++ rest) = readStrBody f (c :: acc) rest := by
  by_cases h1 : c = '"'
  · subst h1
    have hd : escDecode ('"' :: rest) = some ('"', rest) := rfl
    show readStrBody (f + 1) acc ('\\' :: '"' :: rest) = _
    simp [readStrBody, hd]
  · by_cases h2 : c = '\\'
    · subst h2
      have hd : escDecode ('\\' :: rest) = some ('\\', rest) := rfl
      show readStrBody (f + 1) acc ('\\' :: '\\' :: rest) = _
      simp [readStrBody, hd]
    · by_cases h3 : c = '\x08'
      · subst h3
        have hd : escDecode ('b' :: rest) = some ('\x08', rest) := rfl
        show readStrBody (f + 1) acc ('\\' :: 'b' :: rest) = _
        simp [readStrBody, hd]
      · by_cases h4 : c = '\x0c'
        · subst h4
          have hd : escDecode ('f' :: rest) = some ('\x0c', rest) := rfl
          show readStrBody (f + 1) acc ('\\' :: 'f' :: rest) = _
          simp [readStrBody, hd]
        · by_cases h5 : c = '\n'
          · subst h5
            have hd : escDecode ('n' :: rest) = some ('\n', rest) := rfl
            show readStrBody (f + 1) acc ('\\' :: 'n' :: rest) = _
            simp [readStrBody, hd]
          · by_cases h6 : c = '\r'
            · subst h6
              have hd : escDecode ('r' :: rest) = some ('\r', rest) := rfl
              show readStrBody (f + 1) acc ('\\' :: 'r' :: rest) = _
              simp [readStrBody, hd]
            · by_cases h7 : c = '\t'
              · subst h7
                have hd : escDecode ('t' :: rest) = some ('\t', rest) := rfl
                show readStrBody (f + 1) acc ('\\' :: 't' :: rest) = _
                simp [readStrBody, hd]
              · by_cases h8 : c.toNat < 32
                · have harg : esc c ++ rest = '\\' :: 'u' :: '0' :: '0' ::
                      hexDig (c.toNat / 16) :: hexDig (c.toNat % 16) :: rest := by
                    simp [esc, h1, h2, h3, h4, h5, h6, h7, h8]
                  have hq : hexQuad '0' '0' (hexDig (c.toNat / 16))
                      (hexDig (c.toNat % 16)) = some c.toNat := by
                    have h16a : c.toNat / 16 < 16 := by omega
                    have h16b : c.toNat % 16 < 16 := by omega
                    simp [hexQuad, hexNum_hexDig _ h16a, hexNum_hexDig _ h16b,
                      show hexNum '0' = some 0 from rfl]
                    omega
                  have hd := escDecode_unicode '0' '0' (hexDig (c.toNat / 16))
                    (hexDig (c.toNat % 16)) rest c.toNat hq (by omega)
                  rw [harg]
                  simp [readStrBody, hd, Char.ofNat_toNat]
                · have harg : esc c ++ rest = c :: rest := by
                    simp [esc, h1, h2, h3, h4, h5, h6, h7, h8]
                  rw [harg]
                  simp [readStrBody, h1, h2, h8]

theorem readStrBody_flat (cs : List Char) : ∀ (f : Nat) (acc rest : List Char),
    cs.length < f →
    readStrBody f acc (cs.flatMap esc ++ '"' :: rest)
      = some (⟨acc.reverse ++ cs⟩, rest) := by
  induction cs with
  | nil =>
      intro f acc rest hf
      cases f with
      | zero => omega
      | succ f2 =>
          show readStrBody (f2 + 1) acc ('"' :: rest) = _
          simp [readStrBody]
  | cons c t ih =>
      intro f acc rest hf
      cases f with
      | zero => omega
      | succ f2 =>
          rw [List.flatMap_cons, List.append_assoc, esc_step,
            ih f2 _ _ (by simp at hf; omega)]
          simp

theorem readStr_round (s : String) (f : Nat) (rest : List Char)
    (hf : s.data.length < f) :
    readStrBody f [] (s.data.flatMap esc ++ '"' :: rest) = some (s, rest) := by
  rw [readStrBody_flat s.data f [] rest hf]
  cases s with
  | mk d => rfl

/-! ## C6 groundwork: whitespace, heads, and branch selection -/

theorem dropWs_not_ws {c : Char} (t : List Char) (h : jsonWs c = false) :
    dropWs (c :: t) = c :: t := by
  simp [dropWs, h]

theorem dropWs_ws_append (w : List Char) (hw : ∀ c ∈ w, jsonWs c = true)
    (cs : List Char) : dropWs (w ++ cs) = dropWs cs := by
  induction w with
  | nil => rfl
  | cons c t ih =>
      have hc := hw c (List.mem_cons_self ..)
      simp only [List.cons_append, dropWs, hc, if_pos]
      exact ih (fun x hx => hw x (List.mem_cons_of_mem _ hx))

theorem pad_ws (lvl : Nat) : ∀ c ∈ pad lvl, jsonWs c = true := by
  intro c hc
  have := List.eq_of_mem_replicate hc
  subst this
  rfl

theorem nl_pad_ws (lvl : Nat) : ∀ c ∈ '\n' :: pad lvl, jsonWs c = true := by
  intro c hc
  rcases List.mem_cons.mp hc with rfl | hc2
  · rfl
  · exact pad_ws lvl c hc2

theorem readVal_ws (fuel : Nat) (w cs : List Char)
    (hw : ∀ c ∈ w, jsonWs c = true) :
    readVal fuel (w ++ cs) = readVal fuel cs := by
  cases fuel with
  | zero => rfl
  | succ f =>
      simp only [readVal]
      rw [dropWs_ws_append w hw cs]

theorem readItems_ws (fuel : Nat) (w cs : List Char)
    (hw : ∀ c ∈ w, jsonWs c = true) :
    readItems fuel (w ++ cs) = readItems fuel cs := by
  cases fuel with
  | zero => rfl
  | succ f =>
      simp only [readItems]
      rw [readVal_ws f w cs hw]

theorem readEntries_ws (fuel : Nat) (w cs : List Char)
    (hw : ∀ c ∈ w, jsonWs c = true) :
    readEntries fuel (w ++ cs) = readEntries fuel cs := by
  cases fuel with
  | zero => rfl
  | succ f =>
      simp only [readEntries]
      rw [dropWs_ws_append w hw cs]

theorem isDig_not_ws {c : Char} (h : isDig c = true) : jsonWs c = false := by
  have e1 : c ≠ ' ' := isDig_ne h ' ' (by decide)
  have e2 : c ≠ '\t' := isDig_ne h '\t' (by decide)
  have e3 : c ≠ '\n' := isDig_ne h '\n' (by decide)
  have e4 : c ≠ '\r' := isDig_ne h '\r' (by decide)
  simp [jsonWs, e1, e2, e3, e4]

theorem ws_numBreak {c : Char} (t : List Char) (h : jsonWs c = true) :
    numBreak (c :: t) = true := by
  simp [jsonWs] at h
  rcases h with ((rfl | rfl) | rfl) | rfl <;> rfl

theorem numBreak_ws_append (w : List Char) (hw : ∀ c ∈ w, jsonWs c = true)
    (c2 : Char) (rest : List Char) (hc2 : numBreak (c2 :: rest) = true) :
    numBreak (w ++ c2 :: rest) = true := by
  cases w with
  | nil => exact hc2
  | cons c t => exact ws_numBreak _ (hw c (List.mem_cons_self ..))

theorem esc_len_pos (c : Char) : 1 ≤ (esc c).length := by
  unfold esc
  split_ifs <;> simp

theorem flatMap_esc_len (cs : List Char) :
    cs.length ≤ (cs.flatMap esc).length := by
  induction cs with
  | nil => simp
  | cons c t ih =>
      rw [List.flatMap_cons, List.length_append]
      have h1 := esc_len_pos c
      simp only [List.length_cons]
      omega

theorem dumpVal_head (lvl : Nat) (v : PyVal) :
    ∃ c t, dumpVal lvl v = c :: t ∧ jsonWs c = false ∧ c ≠ ']' ∧ c ≠ '}' := by
  cases v with
  | vNone =>
      exact ⟨'n', ['u', 'l', 'l'], by simp [dumpVal], by decide, by decide, by decide⟩
  | vBool b =>
      cases b with
      | true =>
          exact ⟨'t', ['r', 'u', 'e'], by simp [dumpVal], by decide, by decide,
            by decide⟩
      | false =>
          exact ⟨'f', ['a', 'l', 's', 'e'], by simp [dumpVal], by decide,
            by decide, by decide⟩
  | vStr s =>
      exact ⟨'"', s.data.flatMap esc ++ ['"'], by simp [dumpVal, dumpStr],
        by decide, by decide, by decide⟩
  | vList xs =>
      cases xs with
      | nil => exact ⟨'[', [']'], by simp [dumpVal], by decide, by decide, by decide⟩
      | cons x xs2 =>
          exact ⟨'[', '\n' :: (dumpItems (lvl + 1) x xs2 ++ '\n' :: (pad lvl ++ [']'])),
            by simp [dumpVal], by decide, by decide, by decide⟩
  | vDict kvs =>
      cases kvs with
      | nil => exact ⟨'{', ['}'], by simp [dumpVal], by decide, by decide, by decide⟩
      | cons kv kvs2 =>
          exact ⟨'{', '\n' :: (dumpEntries (lvl + 1) kv kvs2 ++ '\n' :: (pad lvl ++ ['}'])),
            by simp [dumpVal], by decide, by decide, by decide⟩
  | vInt n =>
      rcases lt_or_ge n 0 with h | h
      · exact ⟨'-', natChars n.natAbs, by simp [dumpVal, intChars, h],
          by decide, by decide, by decide⟩
      · obtain ⟨c, t, hct, hcd, _⟩ := natChars_cons n.natAbs
        exact ⟨c, t, by simp [dumpVal, intChars, not_lt.mpr h, hct],
          isDig_not_ws hcd, isDig_ne hcd ']' (by decide),
          isDig_ne hcd '}' (by decide)⟩
  | vFloat m e =>
      rcases lt_or_ge m 0 with h | h
      · exact ⟨'-', natChars m.natAbs ++ 'e' :: intChars e,
          by simp [dumpVal, intChars, h], by decide, by decide, by decide⟩
      · obtain ⟨c, t, hct, hcd, _⟩ := natChars_cons m.natAbs
        exact ⟨c, t ++ 'e' :: intChars e,
          by simp [dumpVal, intChars, not_lt.mpr h, hct],
          isDig_not_ws hcd, isDig_ne hcd ']' (by decide),
          isDig_ne hcd '}' (by decide)⟩

theorem dumpItems_shape (lvl : Nat) (x : PyVal) (xs : List PyVal) :
    ∃ T, dumpItems lvl x xs = pad lvl ++ (dumpVal lvl x ++ T) := by
  cases xs with
  | nil => exact ⟨[], by simp [dumpItems]⟩
  | cons y ys => exact ⟨',' :: '\n' :: dumpItems lvl y ys, by simp [dumpItems]⟩

theorem readVal_to_readNum (f : Nat) (c : Char) (t : List Char)
    (hws : jsonWs c = false) (hd : c = '-' ∨ isDig c = true)
    (h1 : c ≠ 'n') (h2 : c ≠ 't') (h3 : c ≠ 'f') (h4 : c ≠ '"')
    (h5 : c ≠ '[') (h6 : c ≠ '{') :
    readVal (f + 1) (c :: t) = readNum (c :: t) := by
  simp only [readVal]
  rw [dropWs_not_ws t hws]
  show (if c = 'n' then
      match t with
      | 'u' :: 'l' :: 'l' :: r2 => some (PyVal.vNone, r2)
      | _ => none
    else if c = 't' then
      match t with
      | 'r' :: 'u' :: 'e' :: r2 => some (PyVal.vBool true, r2)
      | _ => none
    else if c = 'f' then
      match t with
      | 'a' :: 'l' :: 's' :: 'e' :: r2 => some (PyVal.vBool false, r2)
      | _ => none
    else if c = '"' then
      Option.map (fun p => (PyVal.vStr p.1, p.2)) (readStrBody f [] t)
    else if c = '[' then
      match dropWs t with
      | [] => none
      | c2 :: r2 =>
          if c2 = ']' then some (PyVal.vList [], r2)
          else Option.map (fun p => (PyVal.vList p.1, p.2)) (readItems f (c2 :: r2))
    else if c = '{' then
      match dropWs t with
      | [] => none
      | c2 :: r2 =>
          if c2 = '}' then some (PyVal.vDict [], r2)
          else Option.map (fun p => (PyVal.vDict p.1, p.2)) (readEntries f (c2 :: r2))
    else if c = '-' ∨ isDig c = true then readNum (c :: t)
    else none) = readNum (c :: t)
  rw [if_neg h1, if_neg h2, if_neg h3, if_neg h4, if_neg h5, if_neg h6,
    if_pos hd]

theorem readVal_str_branch (f : Nat) (t : List Char) :
    readVal (f + 1) ('"' :: t)
      = Option.map (fun p => (PyVal.vStr p.1, p.2)) (readStrBody f [] t) := by
  simp only [readVal]
  rw [dropWs_not_ws t (by decide)]
  rfl

theorem readVal_list_branch (f : Nat) (t : List Char) (c2 : Char)
    (r2 : List Char) (hdrop : dropWs t = c2 :: r2) (hne : c2 ≠ ']') :
    readVal (f + 1) ('[' :: t)
      = Option.map (fun p => (PyVal.vList p.1, p.2)) (readItems f (c2 :: r2)) := by
  simp only [readVal]
  rw [dropWs_not_ws t (by decide)]
  show (match dropWs t with
    | [] => none
    | c3 :: r3 =>
        if c3 = ']' then some (PyVal.vList [], r3)
        else Option.map (fun p => (PyVal.vList p.1, p.2)) (readItems f (c3 :: r3)))
    = Option.map (fun p => (PyVal.vList p.1, p.2)) (readItems f (c2 :: r2))
  rw [hdrop]
  show (if c2 = ']' then some (PyVal.vList [], r2)
    else Option.map (fun p => (PyVal.vList p.1, p.2)) (readItems f (c2 :: r2)))
    = Option.map (fun p => (PyVal.vList p.1, p.2)) (readItems f (c2 :: r2))
  rw [if_neg hne]

theorem readVal_dict_branch (f : Nat) (t : List Char) (c2 : Char)
    (r2 : List Char) (hdrop : dropWs t = c2 :: r2) (hne : c2 ≠ '}') :
    readVal (f + 1) ('{' :: t)
      = Option.map (fun p => (PyVal.vDict p.1, p.2)) (readEntries f (c2 :: r2)) := by
  simp only [readVal]
  rw [dropWs_not_ws t (by decide)]
  show (match dropWs t with
    | [] => none
    | c3 :: r3 =>
        if c3 = '}' then some (PyVal.vDict [], r3)
        else Option.map (fun p => (PyVal.vDict p.1, p.2)) (readEntries f (c3 :: r3)))
    = Option.map (fun p => (PyVal.vDict p.1, p.2)) (readEntries f (c2 :: r2))
  rw [hdrop]
  show (if c2 = '}' then some (PyVal.vDict [], r2)
    else Option.map (fun p => (PyVal.vDict p.1, p.2)) (readEntries f (c2 :: r2)))
    = Option.map (fun p => (PyVal.vDict p.1, p.2)) (readEntries f (c2 :: r2))
  rw [if_neg hne]

theorem readItems_step (f : Nat) (cs : List Char) (v : PyVal) (r : List Char)
    (hv : readVal f cs = some (v, r)) :
    readItems (f + 1) cs = (match dropWs r with
      | [] => none
      | c :: r2 =>
          if c = ',' then
            match readItems f r2 with
            | some (vs, r3) => some (v :: vs, r3)
            | none => none
          else if c = ']' then some ([v], r2)
          else none) := by
  simp only [readItems]
  rw [hv]

theorem readEntries_step (f : Nat) (t : List Char) (k : String) (r1 : List Char)
    (hk : readStrBody f [] t = some (k, r1)) :
    readEntries (f + 1) ('"' :: t) = (match dropWs r1 with
      | [] => none
      | c2 :: r2 =>
          if c2 = ':' then
            match readVal f r2 with
            | none => none
            | some (v, r3) =>
                match dropWs r3 with
                | [] => none
                | c3 :: r4 =>
                    if c3 = ',' then
                      match readEntries f r4 with
                      | some (kvs, r5) => some ((k, v) :: kvs, r5)
                      | none => none
                    else if c3 = '}' then some ([(k, v)], r4)
                    else none
          else none) := by
  simp only [readEntries]
  rw [dropWs_not_ws t (by decide)]
  show (match readStrBody f [] t with
    | none => none
    | some (k2, r6) =>
        match dropWs r6 with
        | [] => none
        | c2 :: r2 =>
            if c2 = ':' then
              match readVal f r2 with
              | none => none
              | some (v, r3) =>
                  match dropWs r3 with
                  | [] => none
                  | c3 :: r4 =>
                      if c3 = ',' then
                        match readEntries f r4 with
                        | some (kvs, r5) => some ((k2, v) :: kvs, r5)
                        | none => none
                      else if c3 = '}' then some ([(k2, v)], r4)
                      else none
            else none) = _
  rw [hk]

theorem dumpEntries_shape (lvl : Nat) (kv : String × PyVal)
    (kvs : List (String × PyVal)) :
    ∃ T, dumpEntries lvl kv kvs = pad lvl ++ ('"' :: T) := by
  obtain ⟨k, v⟩ := kv
  cases kvs with
  | nil =>
      exact ⟨(k.data.flatMap esc ++ ['"']) ++ ':' :: ' ' :: dumpVal lvl v,
        by simp [dumpEntries, dumpStr]⟩
  | cons kv2 kvs2 =>
      exact ⟨(k.data.flatMap esc ++ ['"'])
          ++ ':' :: ' ' :: (dumpVal lvl v ++ ',' :: '\n' :: dumpEntries lvl kv2 kvs2),
        by simp [dumpEntries, dumpStr]⟩

theorem numBreak_close_sq (rest : List Char) : numBreak (']' :: rest) = true := by
  rfl

theorem numBreak_close_br (rest : List Char) : numBreak ('}' :: rest) = true := by
  rfl

theorem numBreak_comma (rest : List Char) : numBreak (',' :: rest) = true := by
  rfl

theorem readVal_null (f : Nat) (rest : List Char) :
    readVal (f + 1) ('n' :: 'u' :: 'l' :: 'l' :: rest) = some (.vNone, rest) := by
  simp only [readVal]
  rw [dropWs_not_ws _ (show jsonWs 'n' = false from by decide)]
  rfl

theorem readVal_true (f : Nat) (rest : List Char) :
    readVal (f + 1) ('t' :: 'r' :: 'u' :: 'e' :: rest)
      = some (.vBool true, rest) := by
  simp only [readVal]
  rw [dropWs_not_ws _ (show jsonWs 't' = false from by decide)]
  rfl

theorem readVal_false (f : Nat) (rest : List Char) :
    readVal (f + 1) ('f' :: 'a' :: 'l' :: 's' :: 'e' :: rest)
      = some (.vBool false, rest) := by
  simp only [readVal]
  rw [dropWs_not_ws _ (show jsonWs 'f' = false from by decide)]
  rfl

theorem readVal_emptyList (f : Nat) (rest : List Char) :
    readVal (f + 1) ('[' :: ']' :: rest) = some (.vList [], rest) := by
  simp only [readVal]
  rw [dropWs_not_ws _ (show jsonWs '[' = false from by decide)]
  show (match dropWs (']' :: rest) with
    | [] => none
    | c2 :: r2 =>
        if c2 = ']' then some (PyVal.vList [], r2)
        else Option.map (fun p => (PyVal.vList p.1, p.2)) (readItems f (c2 :: r2)))
    = some (PyVal.vList [], rest)
  rw [dropWs_not_ws _ (show jsonWs ']' = false from by decide)]
  rfl

theorem readVal_emptyDict (f : Nat) (rest : List Char) :
    readVal (f + 1) ('{' :: '}' :: rest) = some (.vDict [], rest) := by
  simp only [readVal]
  rw [dropWs_not_ws _ (show jsonWs '{' = false from by decide)]
  show (match dropWs ('}' :: rest) with
    | [] => none
    | c2 :: r2 =>
        if c2 = '}' then some (PyVal.vDict [], r2)
        else Option.map (fun p => (PyVal.vDict p.1, p.2)) (readEntries f (c2 :: r2)))
    = some (PyVal.vDict [], rest)
  rw [dropWs_not_ws _ (show jsonWs '}' = false from by decide)]
  rfl

/-- Round-trip of the JSON codec, by strong induction on the length of the
rendered text: the decoder inverts the pretty-printer on every value, every
nonempty item list, and every nonempty entry list. -/
theorem rt_main (n : Nat) :
    (∀ (v : PyVal) (lvl fuel : Nat) (rest : List Char),
        (dumpVal lvl v).length ≤ n → (dumpVal lvl v).length < fuel →
        numBreak rest = true →
        readVal fuel (dumpVal lvl v ++ rest) = some (v, rest)) ∧
    (∀ (x : PyVal) (xs : List PyVal) (lvl fuel : Nat) (w rest : List Char),
        (dumpItems lvl x xs).length + 1 ≤ n → (∀ c ∈ w, jsonWs c = true) →
        (dumpItems lvl x xs).length + 1 < fuel →
        readItems fuel (dumpItems lvl x xs ++ (w ++ ']' :: rest))
          = some (x :: xs, rest)) ∧
    (∀ (k : String) (v : PyVal) (kvs : List (String × PyVal)) (lvl fuel : Nat)
        (w rest : List Char),
        (dumpEntries lvl (k, v) kvs).length + 1 ≤ n → (∀ c ∈ w, jsonWs c = true) →
        (dumpEntries lvl (k, v) kvs).length + 1 < fuel →
        readEntries fuel (dumpEntries lvl (k, v) kvs ++ (w ++ '}' :: rest))
          = some ((k, v) :: kvs, rest)) := by
  induction n using Nat.strongRecOn with
  | _ n ih =>
      refine ⟨?_, ?_, ?_⟩
      · intro v lvl fuel rest hn hf hr
        cases fuel with
        | zero => exact absurd hf (Nat.not_lt_zero _)
        | succ f =>
            cases v with
            | vNone =>
                rw [show dumpVal lvl .vNone ++ rest = 'n' :: 'u' :: 'l' :: 'l' :: rest
                  from by simp [dumpVal]]
                exact readVal_null f rest
            | vBool b =>
                cases b with
                | true =>
                    rw [show dumpVal lvl (.vBool true) ++ rest
                        = 't' :: 'r' :: 'u' :: 'e' :: rest from by simp [dumpVal]]
                    exact readVal_true f rest
                | false =>
                    rw [show dumpVal lvl (.vBool false) ++ rest
                        = 'f' :: 'a' :: 'l' :: 's' :: 'e' :: rest from by simp [dumpVal]]
                    exact readVal_false f rest
            | vInt i =>
                rw [show dumpVal lvl (.vInt i) ++ rest = intChars i ++ rest
                  from by simp [dumpVal]]
                rcases lt_or_ge i 0 with h | h
                · have he : intChars i ++ rest = '-' :: (natChars i.natAbs ++ rest) := by
                    simp [intChars, h]
                  rw [he, readVal_to_readNum f '-' _ (by decide) (Or.inl rfl) (by decide)
                    (by decide) (by decide) (by decide) (by decide) (by decide), ← he]
                  exact readNum_int i rest hr
                · obtain ⟨c, t, hct, hcd, _⟩ := natChars_cons i.natAbs
                  have he : intChars i ++ rest = c :: (t ++ rest) := by
                    simp [intChars, not_lt.mpr h, hct]
                  rw [he, readVal_to_readNum f c _ (isDig_not_ws hcd) (Or.inr hcd)
                    (isDig_ne hcd 'n' (by decide)) (isDig_ne hcd 't' (by decide))
                    (isDig_ne hcd 'f' (by decide)) (isDig_ne hcd '"' (by decide))
                    (isDig_ne hcd '[' (by decide)) (isDig_ne hcd '{' (by decide)), ← he]
                  exact readNum_int i rest hr
            | vFloat m e =>
                rw [show dumpVal lvl (.vFloat m e) ++ rest
                    = (intChars m ++ 'e' :: intChars e) ++ rest from by simp [dumpVal]]
                rcases lt_or_ge m 0 with h | h
                · have he : (intChars m ++ 'e' :: intChars e) ++ rest
                      = '-' :: ((natChars m.natAbs ++ 'e' :: intChars e) ++ rest) := by
                    simp [intChars, h]
                  rw [he, readVal_to_readNum f '-' _ (by decide) (Or.inl rfl) (by decide)
                    (by decide) (by decide) (by decide) (by decide) (by decide), ← he]
                  exact readNum_float m e rest hr
                · obtain ⟨c, t, hct, hcd, _⟩ := natChars_cons m.natAbs
                  have he : (intChars m ++ 'e' :: intChars e) ++ rest
                      = c :: ((t ++ 'e' :: intChars e) ++ rest) := by
                    simp [intChars, not_lt.mpr h, hct]
                  rw [he, readVal_to_readNum f c _ (isDig_not_ws hcd) (Or.inr hcd)
                    (isDig_ne hcd 'n' (by decide)) (isDig_ne hcd 't' (by decide))
                    (isDig_ne hcd 'f' (by decide)) (isDig_ne hcd '"' (by decide))
                    (isDig_ne hcd '[' (by decide)) (isDig_ne hcd '{' (by decide)), ← he]
                  exact readNum_float m e rest hr
            | vStr s =>
                have hlen : s.data.length < f := by
                  have h1 := flatMap_esc_len s.data
                  have h2 : s.data.length = s.length := rfl
                  simp [dumpVal, dumpStr] at hf h1
                  omega
                rw [show dumpVal lvl (.vStr s) ++ rest
                    = '"' :: (s.data.flatMap esc ++ '"' :: rest)
                  from by simp [dumpVal, dumpStr],
                  readVal_str_branch f _, readStr_round s f rest hlen]
                rfl
            | vList xs =>
                cases xs with
                | nil =>
                    rw [show dumpVal lvl (.vList []) ++ rest = '[' :: ']' :: rest
                      from by simp [dumpVal]]
                    exact readVal_emptyList f rest
                | cons x xs2 =>
                    obtain ⟨T, hT⟩ := dumpItems_shape (lvl + 1) x xs2
                    obtain ⟨c0, t0, hc0, hws0, hne0, _⟩ := dumpVal_head (lvl + 1) x
                    simp [dumpVal, pad] at hf hn
                    have hfl : (dumpItems (lvl + 1) x xs2).length + 1 < f := by omega
                    have harg : dumpVal lvl (.vList (x :: xs2)) ++ rest
                        = '[' :: ('\n' :: (dumpItems (lvl + 1) x xs2
                            ++ ('\n' :: (pad lvl ++ (']' :: rest))))) := by
                      simp [dumpVal]
                    have hdrop : dropWs ('\n' :: (dumpItems (lvl + 1) x xs2
                          ++ ('\n' :: (pad lvl ++ (']' :: rest)))))
                        = c0 :: (t0 ++ (T ++ ('\n' :: (pad lvl ++ (']' :: rest))))) := by
                      rw [hT, hc0]
                      rw [show ('\n' :: ((pad (lvl + 1) ++ ((c0 :: t0) ++ T))
                            ++ ('\n' :: (pad lvl ++ (']' :: rest)))))
                          = ('\n' :: pad (lvl + 1))
                            ++ (c0 :: (t0 ++ (T ++ ('\n' :: (pad lvl ++ (']' :: rest))))))
                        from by simp,
                        dropWs_ws_append _ (nl_pad_ws (lvl + 1)), dropWs_not_ws _ hws0]
                    have hfull : dumpItems (lvl + 1) x xs2
                          ++ (('\n' :: pad lvl) ++ (']' :: rest))
                        = pad (lvl + 1)
                            ++ (c0 :: (t0 ++ (T ++ ('\n' :: (pad lvl ++ (']' :: rest)))))) := by
                      rw [hT, hc0]
                      simp
                    have hitems : readItems f
                          (c0 :: (t0 ++ (T ++ ('\n' :: (pad lvl ++ (']' :: rest))))))
                        = some (x :: xs2, rest) := by
                      rw [← readItems_ws f (pad (lvl + 1)) _ (pad_ws (lvl + 1)), ← hfull]
                      exact (ih ((dumpItems (lvl + 1) x xs2).length + 1) (by omega)).2.1
                        x xs2 (lvl + 1) f ('\n' :: pad lvl) rest le_rfl
                        (nl_pad_ws lvl) hfl
                    rw [harg, readVal_list_branch f _ c0 _ hdrop hne0, hitems]
                    rfl
            | vDict kvs =>
                cases kvs with
                | nil =>
                    rw [show dumpVal lvl (.vDict []) ++ rest = '{' :: '}' :: rest
                      from by simp [dumpVal]]
                    exact readVal_emptyDict f rest
                | cons kv kvs2 =>
                    obtain ⟨k, v2⟩ := kv
                    obtain ⟨T, hT⟩ := dumpEntries_shape (lvl + 1) (k, v2) kvs2
                    simp [dumpVal, pad] at hf hn
                    have hfe : (dumpEntries (lvl + 1) (k, v2) kvs2).length + 1 < f := by
                      omega
                    have harg : dumpVal lvl (.vDict ((k, v2) :: kvs2)) ++ rest
                        = '{' :: ('\n' :: (dumpEntries (lvl + 1) (k, v2) kvs2
                            ++ ('\n' :: (pad lvl ++ ('}' :: rest))))) := by
                      simp [dumpVal]
                    have hdrop : dropWs ('\n' :: (dumpEntries (lvl + 1) (k, v2) kvs2
                          ++ ('\n' :: (pad lvl ++ ('}' :: rest)))))
                        = '"' :: (T ++ ('\n' :: (pad lvl ++ ('}' :: rest)))) := by
                      rw [hT]
                      rw [show ('\n' :: ((pad (lvl + 1) ++ ('"' :: T))
                            ++ ('\n' :: (pad lvl ++ ('}' :: rest)))))
                          = ('\n' :: pad (lvl + 1))
                            ++ ('"' :: (T ++ ('\n' :: (pad lvl ++ ('}' :: rest)))))
                        from by simp,
                        dropWs_ws_append _ (nl_pad_ws (lvl + 1)),
                        dropWs_not_ws _ (show jsonWs '"' = false from by decide)]
                    have hfull : dumpEntries (lvl + 1) (k, v2) kvs2
                          ++ (('\n' :: pad lvl) ++ ('}' :: rest))
                        = pad (lvl + 1)
                            ++ ('"' :: (T ++ ('\n' :: (pad lvl ++ ('}' :: rest))))) := by
                      rw [hT]
                      simp
                    have hentries : readEntries f
                          ('"' :: (T ++ ('\n' :: (pad lvl ++ ('}' :: rest)))))
                        = some ((k, v2) :: kvs2, rest) := by
                      rw [← readEntries_ws f (pad (lvl + 1)) _ (pad_ws (lvl + 1)), ← hfull]
                      exact (ih ((dumpEntries (lvl + 1) (k, v2) kvs2).length + 1)
                          (by omega)).2.2
                        k v2 kvs2 (lvl + 1) f ('\n' :: pad lvl) rest le_rfl
                        (nl_pad_ws lvl) hfe
                    rw [harg, readVal_dict_branch f _ '"' _ hdrop
                      (show ('"' : Char) ≠ '}' from by decide), hentries]
                    rfl
      · intro x xs lvl fuel w rest hn hw hf
        cases fuel with
        | zero => exact absurd hf (Nat.not_lt_zero _)
        | succ f =>
            cases xs with
            | nil =>
                simp [dumpItems, pad] at hf hn
                have hlen : (dumpVal lvl x).length < f := by omega
                have hnb : numBreak (w ++ ']' :: rest) = true :=
                  numBreak_ws_append w hw ']' rest (numBreak_close_sq rest)
                have harr : dumpItems lvl x [] ++ (w ++ ']' :: rest)
                    = pad lvl ++ (dumpVal lvl x ++ (w ++ ']' :: rest)) := by
                  simp [dumpItems]
                have hv : readVal f (dumpItems lvl x [] ++ (w ++ ']' :: rest))
                    = some (x, w ++ ']' :: rest) := by
                  rw [harr, readVal_ws f _ _ (pad_ws lvl)]
                  exact (ih (dumpVal lvl x).length (by omega)).1
                    x lvl f (w ++ ']' :: rest) le_rfl hlen hnb
                rw [readItems_step f _ x _ hv, dropWs_ws_append w hw,
                  dropWs_not_ws _ (show jsonWs ']' = false from by decide)]
                rfl
            | cons y ys =>
                simp [dumpItems, pad] at hf hn
                have hlenx : (dumpVal lvl x).length < f := by omega
                have hleny : (dumpItems lvl y ys).length + 1 < f := by omega
                have harr : dumpItems lvl x (y :: ys) ++ (w ++ ']' :: rest)
                    = pad lvl ++ (dumpVal lvl x
                        ++ ',' :: '\n' :: (dumpItems lvl y ys ++ (w ++ ']' :: rest))) := by
                  simp [dumpItems]
                have hv : readVal f (dumpItems lvl x (y :: ys) ++ (w ++ ']' :: rest))
                    = some (x, ',' :: '\n' :: (dumpItems lvl y ys ++ (w ++ ']' :: rest))) := by
                  rw [harr, readVal_ws f _ _ (pad_ws lvl)]
                  exact (ih (dumpVal lvl x).length (by omega)).1
                    x lvl f _ le_rfl hlenx (numBreak_comma _)
                rw [readItems_step f _ x _ hv,
                  dropWs_not_ws _ (show jsonWs ',' = false from by decide)]
                have hrec : readItems f ('\n' :: (dumpItems lvl y ys ++ (w ++ ']' :: rest)))
                    = some (y :: ys, rest) := by
                  rw [show ('\n' :: (dumpItems lvl y ys ++ (w ++ ']' :: rest)))
                      = ['\n'] ++ (dumpItems lvl y ys ++ (w ++ ']' :: rest)) from rfl,
                    readItems_ws f ['\n'] _ (by decide)]
                  exact (ih ((dumpItems lvl y ys).length + 1) (by omega)).2.1
                    y ys lvl f w rest le_rfl hw hleny
                show (match readItems f ('\n' :: (dumpItems lvl y ys ++ (w ++ ']' :: rest))) with
                  | some (vs, r3) => some (x :: vs, r3)
                  | none => none) = some (x :: y :: ys, rest)
                rw [hrec]
      · intro k v kvs lvl fuel w rest hn hw hf
        cases fuel with
        | zero => exact absurd hf (Nat.not_lt_zero _)
        | succ f =>
            cases kvs with
            | nil =>
                have h1 := flatMap_esc_len k.data
                simp [dumpEntries, dumpStr, pad] at hf hn h1
                have h2 : k.data.length = k.length := rfl
                have hklen : k.data.length < f := by omega
                have hvlen : (dumpVal lvl v).length < f := by omega
                have harr : dumpEntries lvl (k, v) [] ++ (w ++ '}' :: rest)
                    = pad lvl ++ ('"' :: (k.data.flatMap esc
                        ++ '"' :: ':' :: ' ' :: (dumpVal lvl v ++ (w ++ '}' :: rest)))) := by
                  simp [dumpEntries, dumpStr]
                have hk := readStr_round k f
                  (':' :: ' ' :: (dumpVal lvl v ++ (w ++ '}' :: rest))) hklen
                rw [harr, readEntries_ws (f + 1) (pad lvl) _ (pad_ws lvl),
                  readEntries_step f _ k _ hk,
                  dropWs_not_ws _ (show jsonWs ':' = false from by decide)]
                have hv : readVal f (' ' :: (dumpVal lvl v ++ (w ++ '}' :: rest)))
                    = some (v, w ++ '}' :: rest) := by
                  rw [show (' ' :: (dumpVal lvl v ++ (w ++ '}' :: rest)))
                      = [' '] ++ (dumpVal lvl v ++ (w ++ '}' :: rest)) from rfl,
                    readVal_ws f [' '] _ (by decide)]
                  exact (ih (dumpVal lvl v).length (by omega)).1
                    v lvl f _ le_rfl hvlen
                    (numBreak_ws_append w hw '}' rest (numBreak_close_br rest))
                show (match readVal f (' ' :: (dumpVal lvl v ++ (w ++ '}' :: rest))) with
                  | none => none
                  | some (v2, r3) =>
                      match dropWs r3 with
                      | [] => none
                      | c3 :: r4 =>
                          if c3 = ',' then
                            match readEntries f r4 with
                            | some (kvs2, r5) => some ((k, v2) :: kvs2, r5)
                            | none => none
                          else if c3 = '}' then some ([(k, v2)], r4)
                          else none) = some ([(k, v)], rest)
                rw [hv]
                show (match dropWs (w ++ '}' :: rest) with
                  | [] => none
                  | c3 :: r4 =>
                      if c3 = ',' then
                        match readEntries f r4 with
                        | some (kvs2, r5) => some ((k, v) :: kvs2, r5)
                        | none => none
                      else if c3 = '}' then some ([(k, v)], r4)
                      else none) = some ([(k, v)], rest)
                rw [dropWs_ws_append w hw,
                  dropWs_not_ws _ (show jsonWs '}' = false from by decide)]
                rfl
            | cons kv2 kvs2 =>
                obtain ⟨k2, v2⟩ := kv2
                have h1 := flatMap_esc_len k.data
                simp [dumpEntries, dumpStr, pad] at hf hn h1
                have h2 : k.data.length = k.length := rfl
                have hklen : k.data.length < f := by omega
                have hvlen : (dumpVal lvl v).length < f := by omega
                have hkvs : (dumpEntries lvl (k2, v2) kvs2).length + 1 < f := by omega
                have harr : dumpEntries lvl (k, v) ((k2, v2) :: kvs2) ++ (w ++ '}' :: rest)
                    = pad lvl ++ ('"' :: (k.data.flatMap esc
                        ++ '"' :: ':' :: ' ' :: (dumpVal lvl v
                          ++ ',' :: '\n' :: (dumpEntries lvl (k2, v2) kvs2
                            ++ (w ++ '}' :: rest))))) := by
                  simp [dumpEntries, dumpStr]
                have hk := readStr_round k f
                  (':' :: ' ' :: (dumpVal lvl v
                    ++ ',' :: '\n' :: (dumpEntries lvl (k2, v2) kvs2
                      ++ (w ++ '}' :: rest)))) hklen
                rw [harr, readEntries_ws (f + 1) (pad lvl) _ (pad_ws lvl),
                  readEntries_step f _ k _ hk,
                  dropWs_not_ws _ (show jsonWs ':' = false from by decide)]
                have hv : readVal f (' ' :: (dumpVal lvl v
                      ++ ',' :: '\n' :: (dumpEntries lvl (k2, v2) kvs2
                        ++ (w ++ '}' :: rest))))
                    = some (v, ',' :: '\n' :: (dumpEntries lvl (k2, v2) kvs2
                        ++ (w ++ '}' :: rest))) := by
                  rw [show (' ' :: (dumpVal lvl v
                        ++ ',' :: '\n' :: (dumpEntries lvl (k2, v2) kvs2
                          ++ (w ++ '}' :: rest))))
                      = [' '] ++ (dumpVal lvl v
                        ++ ',' :: '\n' :: (dumpEntries lvl (k2, v2) kvs2
                          ++ (w ++ '}' :: rest))) from rfl,
                    readVal_ws f [' '] _ (by decide)]
                  exact (ih (dumpVal lvl v).length (by omega)).1
                    v lvl f _ le_rfl hvlen (numBreak_comma _)
                show (match readVal f (' ' :: (dumpVal lvl v
                      ++ ',' :: '\n' :: (dumpEntries lvl (k2, v2) kvs2
                        ++ (w ++ '}' :: rest)))) with
                  | none => none
                  | some (v3, r3) =>
                      match dropWs r3 with
                      | [] => none
                      | c3 :: r4 =>
                          if c3 = ',' then
                            match readEntries f r4 with
                            | some (kvs3, r5) => some ((k, v3) :: kvs3, r5)
                            | none => none
                          else if c3 = '}' then some ([(k, v3)], r4)
                          else none) = some ((k, v) :: (k2, v2) :: kvs2, rest)
                rw [hv]
                show (match dropWs (',' :: '\n' :: (dumpEntries lvl (k2, v2) kvs2
                      ++ (w ++ '}' :: rest))) with
                  | [] => none
                  | c3 :: r4 =>
                      if c3 = ',' then
                        match readEntries f r4 with
                        | some (kvs3, r5) => some ((k, v) :: kvs3, r5)
                        | none => none
                      else if c3 = '}' then some ([(k, v)], r4)
                      else none) = some ((k, v) :: (k2, v2) :: kvs2, rest)
                rw [dropWs_not_ws _ (show jsonWs ',' = false from by decide)]
                have hrec : readEntries f ('\n' :: (dumpEntries lvl (k2, v2) kvs2
                      ++ (w ++ '}' :: rest)))
                    = some ((k2, v2) :: kvs2, rest) := by
                  rw [show ('\n' :: (dumpEntries lvl (k2, v2) kvs2 ++ (w ++ '}' :: rest)))
                      = ['\n'] ++ (dumpEntries lvl (k2, v2) kvs2 ++ (w ++ '}' :: rest))
                    from rfl,
                    readEntries_ws f ['\n'] _ (by decide)]
                  exact (ih ((dumpEntries lvl (k2, v2) kvs2).length + 1) (by omega)).2.2
                    k2 v2 kvs2 lvl f w rest le_rfl hw hkvs
                show (match readEntries f ('\n' :: (dumpEntries lvl (k2, v2) kvs2
                      ++ (w ++ '}' :: rest))) with
                  | some (kvs3, r5) => some ((k, v) :: kvs3, r5)
                  | none => none) = some ((k, v) :: (k2, v2) :: kvs2, rest)
                rw [hrec]

/-- The decoder inverts the pretty-printer on any single value, leaving the
rest of the input untouched, provided the remainder cannot extend a number
token. -/
theorem rt_val (v : PyVal) (lvl fuel : Nat) (rest : List Char)
    (hf : (dumpVal lvl v).length < fuel) (hr : numBreak rest = true) :
    readVal fuel (dumpVal lvl v ++ rest) = some (v, rest) :=
  (rt_main (dumpVal lvl v).length).1 v lvl fuel rest le_rfl hf hr

/-- `json.loads` inverts `json.dump`: parsing the pretty-printed text of an
employee list recovers exactly that list. -/
theorem loads_dumps (es : List PyVal) : loads (dumps es) = some (.vList es) := by
  have h := rt_val (.vList es) 0 ((dumpVal 0 (.vList es)).length + 1) []
    (by omega) rfl
  rw [List.append_nil] at h
  show (match readVal ((dumpVal 0 (.vList es)).length + 1) (dumpVal 0 (.vList es)) with
    | some (v, r) => if dropWs r = [] then some v else none
    | none => none) = some (.vList es)
  rw [h]
  rfl

/-- C6: saving any collection of records to a path and loading from the same
path returns an equal collection. The theorem is hypothesis-free: it holds
for every representable collection, in particular every collection of
well-formed records (integer id, string name, integer age, string
department). -/
theorem save_then_load_roundtrip (employees : List PyVal) (fs : FileSys)
    (path : String) :
    load_data (save_data employees fs path) path = employees := by
  show (match save_data employees fs path path with
    | none => []
    | some content =>
        match loads content with
        | some (.vList xs) => xs
        | _ => []) = employees
  rw [show save_data employees fs path path = some (dumps employees) from by
    simp [save_data]]
  show (match loads (dumps employees) with
    | some (.vList xs) => xs
    | _ => ([] : List PyVal)) = employees
  rw [loads_dumps]

end EmployeeManager
